import Mathlib

/-!
# Verification of the i18n-cli translation synchronization engine

A shallow embedding of the core of the `i18n-cli` repository:

* the per-key decision logic and the two execution strategies
  (`single_process` and `batch_process` from `cmd/translate.go`), and
* the resilient translation client (`Translate` and `BatchTranslate`
  from `internal/gpt/gpt.go`).

Go maps from string keys to string values are embedded as association
lists `List (String × String)`; iteration order over a Go map is
unspecified, so the engine functions take the source document as a list
of key/value pairs in an arbitrary visitation order, and theorems either
quantify over that order or assume distinct keys (`List.Nodup`), which
is an invariant of every Go map.  External collaborators (the JSON
codec of `encoding/json` for string arrays, the network call of the
OpenAI client, and the two JSON response parsers of `BatchTranslate`)
are modelled as oracle parameters; the engine and client logic around
them is translated from the source.  Console output and log files are
not modelled, except that each result record keeps the data the code
prints (counts, failed keys) so that claims about observability can be
stated.  Translation calls are recorded in the result traces together
with the key whose loop iteration issued them, which is the attribution
the code itself uses when it logs errors.
-/

namespace I18n

/-! ## Association-list model of a Go `map[string]string` -/

/-- Lookup in an association list: the Go expression `m[k]` together
with its `ok` flag, i.e. `none` when the key is absent. -/
def mapLookup (m : List (String × String)) (k : String) : Option String :=
  match m with
  | [] => none
  | (k', v) :: rest => if k' = k then some v else mapLookup rest k

/-- The Go assignment `m[k] = v`: replaces the binding of `k` if
present, otherwise appends it. -/
def mapInsert (m : List (String × String)) (k v : String) : List (String × String) :=
  match m with
  | [] => [(k, v)]
  | (k', v') :: rest => if k' = k then (k, v) :: rest else (k', v') :: mapInsert rest k v

/-- A locale document's flattened `key → value` items
(`parser.LocaleFileContent.LocaleItemsMap`). -/
abbrev LocaleMap := List (String × String)

/-! ## Helper string functions (ASCII fragment of the Go `strings` package) -/

/-- `strings.HasPrefix`. -/
def strStartsWith (s p : String) : Bool :=
  p.toList.isPrefixOf s.toList

/-- `strings.HasSuffix`. -/
def strEndsWith (s p : String) : Bool :=
  p.toList.reverse.isPrefixOf s.toList.reverse

/-- ASCII lower-casing of one character, the fragment of Unicode simple
folding exercised by this development. -/
def lowerChar (c : Char) : Char :=
  if 65 ≤ c.toNat ∧ c.toNat ≤ 90 then Char.ofNat (c.toNat + 32) else c

/-- `strings.EqualFold` on the ASCII fragment: case-insensitive
equality. -/
def equalFold (s t : String) : Bool :=
  s.toList.map lowerChar = t.toList.map lowerChar

/-- Whitespace recognised by `strings.TrimSpace` (ASCII fragment). -/
def isSpaceChar (c : Char) : Bool :=
  c = ' ' ∨ c = '\t' ∨ c = '\n' ∨ c = '\r'

/-- `strings.TrimSpace`. -/
def trimS (s : String) : String :=
  String.mk ((((s.toList.dropWhile isSpaceChar).reverse).dropWhile isSpaceChar).reverse)

/-! ## Diff logic: `findMissingKeys` and the missing-key initialization -/

/-- `findMissingKeys(source, target)` from `cmd/translate.go`: the
set of source keys that have no entry in the target map, here as the
sublist of source keys (in visitation order) absent from the target. -/
def findMissingKeys (source target : LocaleMap) : List String :=
  (source.map Prod.fst).filter (fun k => (mapLookup target k).isNone)

/-- The initialization loop of `single_process`/`batch_process`: every
missing key that exists in the source map is inserted into the target
map with the empty string ("Initialize with empty string to trigger
translation"). -/
def initMissingTarget (source target : LocaleMap) : LocaleMap :=
  (findMissingKeys source target).foldl
    (fun t k => if (mapLookup source k).isSome then mapInsert t k "" else t) target

/-! ## The full-mode predicates

The test `target.LocaleItemsMap[k][0] == '!'` indexes the first byte of
the target value; the faithful embedding returns `none` when the string
is empty (where the Go index expression would panic).  The engine below
uses `Option.getD false`; the safety claim proves the `none` case is
unreachable. -/

/-- The sentinel test `tv[0] == '!'`, `none` on the empty string. -/
def sentinelAt0 (tv : String) : Option Bool :=
  tv.toList.head?.map (fun c => c = '!')

/-- Full-mode retranslation test of `single_process`:
`len(tv) == 0`, else `tv[0] == '!'`. -/
def needFullSingle (tv : String) : Option Bool :=
  if tv.toList = [] then some true else sentinelAt0 tv

/-- Full-mode retranslation test of `batch_process`:
`strings.EqualFold(tv, v) || len(tv) == 0`, else `tv[0] == '!'`. -/
def needFullBatch (tv v : String) : Option Bool :=
  if equalFold tv v ∨ tv.toList = [] then some true else sentinelAt0 tv

/-! ## The single-item strategy -/

/-- The JSON string-array codec used by `single_process`
(`json.Unmarshal` into `[]string` and `json.Marshal`); an external
collaborator, passed as a parameter.  `marshalStringArray` is total
because `json.Marshal` of a `[]string` cannot fail. -/
structure Codec where
  parseStringArray : String → Option (List String)
  marshalStringArray : List String → String

/-- State threaded through one `single_process` call: the mutated
target map, the `failedKeys` slice, the `Translate` invocations made so
far (paired with the key whose iteration issued them), the
`translatedCount` counter and the keys for which `needToTranslate` was
taken. -/
structure SingleState where
  target : LocaleMap
  failedKeys : List String
  calls : List (String × String)
  translatedCount : Nat
  selected : List String

/-- Element-wise array translation of `single_process`: translate each
element via `Translate`; on the first error or empty (`""`/`" "`)
result, abort (`arrayTranslationFailed`).  Returns the calls issued and
`some` translated array on success. -/
def translateArray (tr : String → Except Unit String) (k : String) :
    List String → List (String × String) × Option (List String)
  | [] => ([], some [])
  | s :: rest =>
    match tr s with
    | .error _ => ([(k, s)], none)
    | .ok t =>
      if t = "" ∨ t = " " then ([(k, s)], none)
      else
        let (cs, r) := translateArray tr k rest
        ((k, s) :: cs, r.map (fun l => t :: l))

/-- The `needToTranslate` body of `single_process` for key `k` with
source value `v`: if `v` is bracketed and parses as a JSON string
array, translate element-by-element and re-marshal; otherwise translate
the whole value; record failure or success. -/
def singleTranslateKey (codec : Codec) (tr : String → Except Unit String)
    (s : SingleState) (k v : String) : SingleState :=
  let s1 := { s with selected := s.selected ++ [k] }
  let arrOpt : Option (List String) :=
    if strStartsWith v "[" ∧ strEndsWith v "]" then codec.parseStringArray v else none
  match arrOpt with
  | some arr =>
    let pr := translateArray tr k arr
    let s2 := { s1 with calls := s1.calls ++ pr.1 }
    match pr.2 with
    | some tarr =>
      { s2 with target := mapInsert s2.target k (codec.marshalStringArray tarr),
                translatedCount := s2.translatedCount + 1 }
    | none => { s2 with failedKeys := s2.failedKeys ++ [k] }
  | none =>
    let s2 := { s1 with calls := s1.calls ++ [(k, v)] }
    match tr v with
    | .error _ => { s2 with failedKeys := s2.failedKeys ++ [k] }
    | .ok r =>
      if r = "" ∨ r = " " then { s2 with failedKeys := s2.failedKeys ++ [k] }
      else { s2 with target := mapInsert s2.target k r,
                     translatedCount := s2.translatedCount + 1 }

/-- One iteration of the key loop of `single_process`. -/
def singleStep (codec : Codec) (tr : String → Except Unit String)
    (indep : Option LocaleMap) (mode : String) (missingKeys : List String)
    (s : SingleState) (kv : String × String) : SingleState :=
  let k := kv.1
  let v := kv.2
  if v.toList = [] then s
  else
    match mapLookup s.target k with
    | none => singleTranslateKey codec tr s k v
    | some tv =>
      match indep with
      | some ind =>
        match mapLookup ind k with
        | some iv => { s with target := mapInsert s.target k iv }
        | none => s
      | none =>
        if mode = "full" then
          if (needFullSingle tv).getD false then singleTranslateKey codec tr s k v else s
        else if mode = "missing" then
          if missingKeys.contains k then singleTranslateKey codec tr s k v else s
        else s

/-- Result of one `single_process` call.  The document is persisted
from `target`; `ret` is the Go function's return value (an `error`,
`nil` unless serialization or the file write fails, neither of which
can fail in the pure model); the counts appear in the final console
line and `failedKeys` in the sidecar file. -/
structure SingleResult where
  target : LocaleMap
  failedKeys : List String
  calls : List (String × String)
  translatedCount : Nat
  selected : List String
  totalKeys : Nat
  ret : Except Unit Unit

/-- `single_process` from `cmd/translate.go`: compute the missing keys,
initialize them to the empty string, then run the key loop in the
given visitation order. -/
def single_process (codec : Codec) (tr : String → Except Unit String)
    (source : List (String × String)) (target0 : LocaleMap)
    (indep : Option LocaleMap) (mode : String) : SingleResult :=
  let missing := findMissingKeys source target0
  let t1 := initMissingTarget source target0
  let s := source.foldl (singleStep codec tr indep mode missing)
    ⟨t1, [], [], 0, []⟩
  ⟨s.target, s.failedKeys, s.calls, s.translatedCount, s.selected, source.length, .ok ()⟩

/-! ## The batch strategy -/

/-- State threaded through one `batch_process` call: the target map,
the pending `batch` (source texts) and parallel `keys` slice, the
`failedKeys` slice, the `BatchTranslate` invocations made so far (each
recorded as the `keys`/`batch` pairing it flushed), `translatedCount`
(incremented when a key is queued) and the selected keys. -/
structure BatchState where
  target : LocaleMap
  batch : List String
  keys : List String
  failedKeys : List String
  flushes : List (List (String × String))
  translatedCount : Nat
  selected : List String

/-- The result-merging loop of `sendBatch`
(`for i, result := range results`): an empty (`""`/`" "`) element
records its key as failed and is not written; any other element
overwrites the target entry of its key.  The triples are
`((key, sourceText), result)`; Go indexes `keys[i]`/`batch[i]` with the
loop index over `results`, which coincides with this zip whenever
`results` is no longer than the batch (the client guarantees equal
length). -/
def applyResults (target : LocaleMap) (failed : List String) :
    List ((String × String) × String) → LocaleMap × List String
  | [] => (target, failed)
  | ((k, _), r) :: rest =>
    if r = " " ∨ r = "" then applyResults target (failed ++ [k]) rest
    else applyResults (mapInsert target k r) failed rest

/-- The `sendBatch` closure of `batch_process`.  On a whole-batch error
every pending key is appended to `failedKeys` and the function returns
before the clearing statements, so `batch` and `keys` keep their
contents; on success the results are merged and the batch is cleared. -/
def sendBatch (bf : List String → Except Unit (List String)) (s : BatchState) : BatchState :=
  if s.batch = [] then s
  else
    let s := { s with flushes := s.flushes ++ [s.keys.zip s.batch] }
    match bf s.batch with
    | .error _ => { s with failedKeys := s.failedKeys ++ s.keys }
    | .ok results =>
      let tf := applyResults s.target s.failedKeys ((s.keys.zip s.batch).zip results)
      { s with target := tf.1, failedKeys := tf.2, batch := [], keys := [] }

/-- The `needToTranslate` branch of the `batch_process` loop: append
the value and key to the pending batch, bump `translatedCount` (the
batch strategy counts keys when they are queued), and flush once
`len(batch) >= batchSize`. -/
def batchQueue (bf : List String → Except Unit (List String)) (batchSize : Nat)
    (s : BatchState) (k v : String) : BatchState :=
  let s1 := { s with batch := s.batch ++ [v], keys := s.keys ++ [k],
                     translatedCount := s.translatedCount + 1,
                     selected := s.selected ++ [k] }
  if batchSize ≤ s1.batch.length then sendBatch bf s1 else s1

/-- One iteration of the key loop of `batch_process`: the same decision
structure as `single_process` (the override branch never queues), with
the batch-strategy full-mode predicate. -/
def batchStep (bf : List String → Except Unit (List String)) (batchSize : Nat)
    (indep : Option LocaleMap) (mode : String) (missingKeys : List String)
    (s : BatchState) (kv : String × String) : BatchState :=
  let k := kv.1
  let v := kv.2
  if v.toList = [] then s
  else
    match mapLookup s.target k with
    | none => batchQueue bf batchSize s k v
    | some tv =>
      match indep with
      | some ind =>
        match mapLookup ind k with
        | some iv => { s with target := mapInsert s.target k iv }
        | none => s
      | none =>
        if mode = "full" then
          if (needFullBatch tv v).getD false then batchQueue bf batchSize s k v else s
        else if mode = "missing" then
          if missingKeys.contains k then batchQueue bf batchSize s k v else s
        else s

/-- Result of one `batch_process` call; fields as in `SingleResult`,
with `flushes` recording each `BatchTranslate` payload together with
the keys it was flushed for.  The final console line prints
`translatedCount - failedKeys.length` as the translated count. -/
structure BatchResult where
  target : LocaleMap
  batch : List String
  keys : List String
  failedKeys : List String
  flushes : List (List (String × String))
  translatedCount : Nat
  selected : List String
  totalKeys : Nat
  ret : Except Unit Unit

/-- `batch_process` from `cmd/translate.go`: compute and initialize the
missing keys, run the key loop, then flush any remaining pending
items. -/
def batch_process (bf : List String → Except Unit (List String)) (batchSize : Nat)
    (source : List (String × String)) (target0 : LocaleMap)
    (indep : Option LocaleMap) (mode : String) : BatchResult :=
  let missing := findMissingKeys source target0
  let t1 := initMissingTarget source target0
  let s := source.foldl (batchStep bf batchSize indep mode missing)
    ⟨t1, [], [], [], [], 0, []⟩
  let s := if s.batch = [] then s else sendBatch bf s
  ⟨s.target, s.batch, s.keys, s.failedKeys, s.flushes, s.translatedCount, s.selected,
    source.length, .ok ()⟩

/-! ## The resilient translation client (`internal/gpt/gpt.go`)

One external chat-completion call is an oracle value: either a
classified transport failure, a response without choices, or the
content string of the first choice.  The retry loops of `Translate` and
`BatchTranslate` consume the oracle indexed by attempt number. -/

/-- Outcome of one `CreateChatCompletion` call, as classified by the
error handling of `Translate`/`BatchTranslate`. -/
inductive CallResult where
  | rateLimit
  | serverError
  | timeout
  | otherTransport
  | noChoices
  | content (s : String)
deriving DecidableEq

/-- Per-attempt failure causes of the client. -/
inductive ClientErr where
  | rateLimited
  | serverErr
  | timedOut
  | otherErr
  | noChoices
  | emptyResult
  | parseArrayFailed
  | extractFailed
  | noJsonFound
deriving DecidableEq

/-- The Go `for attempt := 0; attempt < 3; attempt++` retry loop,
shared by `Translate` and `BatchTranslate`: run attempts starting at
index `i` while `remaining` is positive, tracking `lastErr`; return the
first success, or on exhaustion the error wrapping the last observed
cause, together with the number of attempts made. -/
def retryFrom (att : Nat → Except ClientErr α) :
    Nat → Nat → Option ClientErr → Except (Option ClientErr) α × Nat
  | 0, _, last => (.error last, 0)
  | r + 1, i, _ =>
    match att i with
    | .ok a => (.ok a, 1)
    | .error e =>
      let rc := retryFrom att r (i + 1) (some e)
      (rc.1, rc.2 + 1)

/-- One attempt of `Translate`: classify transport failures; with a
choice present, trim the content and treat an empty (`""`/`" "`)
result as a failure. -/
def translateAttempt (r : CallResult) : Except ClientErr String :=
  match r with
  | .rateLimit => .error .rateLimited
  | .serverError => .error .serverErr
  | .timeout => .error .timedOut
  | .otherTransport => .error .otherErr
  | .noChoices => .error .noChoices
  | .content c =>
    let result := trimS c
    if result = "" ∨ result = " " then .error .emptyResult else .ok result

/-- `Handler.Translate`: up to 3 attempts; on exhaustion the error
wraps the last observed cause.  The second component counts the
attempts (external calls) made. -/
def gptTranslate (oracle : Nat → CallResult) : Except (Option ClientErr) String × Nat :=
  retryFrom (fun i => translateAttempt (oracle i)) 3 0 none

/-- First index of `'\x7b'` (`strings.Index(content, "{")`). -/
def firstOpenBrace (cs : List Char) : Option Nat :=
  cs.findIdx? (fun c => c = '\x7b')

/-- Last index of `'\x7d'` (`strings.LastIndex(content, "}")`). -/
def lastCloseBrace (cs : List Char) : Option Nat :=
  (cs.reverse.findIdx? (fun c => c = '\x7d')).map (fun i => cs.length - 1 - i)

/-- One attempt of `BatchTranslate` on a response with content `c`.
`po` parses a string as the expected object form (the `translations`
field), `pa` parses it as a bare JSON array; both are `encoding/json`
collaborators.  The three fallbacks in source order, each accepted only
with the parsed length equal to `n`:
1. whole content as the object form;
2. else, if the trimmed content is bracketed, as a bare array (a
   parse or length failure here fails the attempt);
3. else, the substring from the first `'\x7b'` to the last `'\x7d'`
   as the object form.
The per-element empty check of the source then only updates `lastErr`
inside its own loop and neither retries nor filters, so the parsed
list is returned as is. -/
def batchParseContent (po pa : String → Option (List String)) (n : Nat)
    (c : String) : Except ClientErr (List String) :=
  let content := trimS c
  let fb2 : Except ClientErr (List String) :=
    if strStartsWith content "[" ∧ strEndsWith content "]" then
      match pa content with
      | some ts => if ts.length = n then .ok ts else .error .parseArrayFailed
      | none => .error .parseArrayFailed
    else
      let cs := content.toList
      match firstOpenBrace cs, lastCloseBrace cs with
      | some si, some ei =>
        if si < ei then
          match po (String.mk ((cs.drop si).take (ei + 1 - si))) with
          | some ts => if ts.length = n then .ok ts else .error .extractFailed
          | none => .error .extractFailed
        else .error .noJsonFound
      | _, _ => .error .noJsonFound
  match po content with
  | some ts => if ts.length = n then .ok ts else fb2
  | none => fb2

/-- One attempt of `BatchTranslate`: transport classification as in
`Translate`, then the parsing fallback chain. -/
def batchAttempt (po pa : String → Option (List String)) (n : Nat)
    (r : CallResult) : Except ClientErr (List String) :=
  match r with
  | .rateLimit => .error .rateLimited
  | .serverError => .error .serverErr
  | .timeout => .error .timedOut
  | .otherTransport => .error .otherErr
  | .noChoices => .error .noChoices
  | .content c => batchParseContent po pa n c

/-- `Handler.BatchTranslate`: up to 3 attempts over the oracle. -/
def gptBatchTranslate (po pa : String → Option (List String))
    (oracle : Nat → CallResult) (texts : List String) :
    Except (Option ClientErr) (List String) × Nat :=
  retryFrom (fun i => batchAttempt po pa texts.length (oracle i)) 3 0 none

/-! ## Concrete instances used in closed statements

The engine is parameterized by the `encoding/json` string-array codec
and by translator oracles.  Closed counterexamples and witnesses
instantiate them with the small concrete values below; the parser and
marshaller agree with `encoding/json` on the escape-free strings they
are applied to. -/

/-- Character scanner for a JSON array of strings, after the opening
bracket and the opening quote of the first element: `cur` is the
current element read so far (reversed), `acc` the completed elements. -/
def scanSeqGo : List Char → List Char → List String → Option (List String)
  | [], _, _ => none
  | c :: cs, cur, acc =>
    if c = '"' then
      match cs with
      | ',' :: '"' :: cs2 => scanSeqGo cs2 [] (acc ++ [String.mk cur.reverse])
      | [']'] => some (acc ++ [String.mk cur.reverse])
      | _ => none
    else scanSeqGo cs (c :: cur) acc

/-- Parse a JSON array of strings without escape sequences or
whitespace: the fragment of `json.Unmarshal` into `[]string` used by
the concrete inputs of this development. -/
def parseStringArraySimple (v : String) : Option (List String) :=
  match v.toList with
  | '[' :: ']' :: rest => if rest = [] then some [] else none
  | '[' :: '"' :: rest => scanSeqGo rest [] []
  | _ => none

/-- `json.Marshal` of a `[]string` whose elements need no escaping. -/
def marshalStringArraySimple (l : List String) : String :=
  "[" ++ String.intercalate "," (l.map (fun s => "\"" ++ s ++ "\"")) ++ "]"

/-- The concrete codec built from the two functions above. -/
def simpleCodec : Codec :=
  ⟨parseStringArraySimple, marshalStringArraySimple⟩

/-- The element-wise batch translator induced by a single-item
translator: the whole batch fails if any element fails, otherwise the
results are returned in order.  This is the "same deterministic
translator" reading of the equivalence claim. -/
def mapTr (tr : String → Except Unit String) : List String → Except Unit (List String)
  | [] => .ok []
  | x :: xs =>
    match tr x with
    | .error e => .error e
    | .ok y =>
      match mapTr tr xs with
      | .error e => .error e
      | .ok ys => .ok (y :: ys)

/-- A deterministic translator prefixing `T:`, always succeeding. -/
def trPrefix : String → Except Unit String :=
  fun s => .ok ("T:" ++ s)

/-- A translator that always returns the empty string (every result is
an empty translation). -/
def trEmpty : String → Except Unit String :=
  fun _ => .ok ""

/-- A batch translator failing exactly on the payload `["x"]` and
otherwise translating element-wise with the `T:` prefix. -/
def bfPartial : List String → Except Unit (List String) :=
  fun l => if l = ["x"] then .error () else mapTr trPrefix l

/-- A batch translator that always fails. -/
def bfErrAll : List String → Except Unit (List String) :=
  fun _ => .error ()

/-- A concrete mid-run batch state with one pending item. -/
def sC1 : BatchState :=
  ⟨[("b", "old")], ["x"], ["a"], [], [], 1, ["a"]⟩

/-- A call oracle always answering with whitespace-only content. -/
def ocBlank : Nat → CallResult :=
  fun _ => .content " "

/-- A call oracle whose first two attempts are transport failures and
whose third answers `ok`. -/
def ocThird : Nat → CallResult :=
  fun i => if i = 0 then .rateLimit else if i = 1 then .serverError else .content "ok"

/-- A concrete object-form response parser accepting only the exact
response text `\x7bT\x7d` and producing a two-element list with one
empty element. -/
def poC7 : String → Option (List String) :=
  fun s => if s = "\x7bT\x7d" then some ["x", ""] else none

/-- A bare-array response parser that accepts nothing. -/
def paNone : String → Option (List String) :=
  fun _ => none

/-- A call oracle answering with the fixed content `\x7bT\x7d`. -/
def ocC7 : Nat → CallResult :=
  fun _ => .content "\x7bT\x7d"

/-- No payload pair of any recorded flush uses key `k`. -/
def flushesAvoid (fls : List (List (String × String))) (k : String) : Prop :=
  ∀ fl ∈ fls, ∀ p ∈ fl, p.1 ≠ k

/-- Key `k` is pending exactly once, paired with source text `v`: the
parallel `keys`/`batch` slices, viewed as the zipped payload, contain
one entry for `k` and it carries `v`. -/
def pendingOnce (s : BatchState) (k v : String) : Prop :=
  ∃ p1 p2, s.keys.zip s.batch = p1 ++ (k, v) :: p2
    ∧ k ∉ p1.map Prod.fst ∧ k ∉ p2.map Prod.fst

/-- Key `k` has been flushed and written with result `r`, and is no
longer pending. -/
def resolvedAt (s : BatchState) (k r : String) : Prop :=
  mapLookup s.target k = some r ∧ k ∉ s.keys

/-- Invariant of the batch run for a key `k` with source text `v`
whose translation is `r`: the key is pending (not yet failed), already
written with `r` (not failed), or recorded as failed. -/
def C4Inv (s : BatchState) (k v r : String) : Prop :=
  (pendingOnce s k v ∧ k ∉ s.failedKeys)
  ∨ (resolvedAt s k r ∧ k ∉ s.failedKeys)
  ∨ k ∈ s.failedKeys

/-! ## Lemmas about the map model -/

theorem mapLookup_insert_self (m : LocaleMap) (k v : String) :
    mapLookup (mapInsert m k v) k = some v := by
  induction m with
  | nil => simp [mapInsert, mapLookup]
  | cons p rest ih =>
    obtain ⟨k', v'⟩ := p
    by_cases h : k' = k
    · subst h
      simp [mapInsert, mapLookup]
    · simp [mapInsert, mapLookup, h, ih]

theorem mapLookup_insert_ne (m : LocaleMap) (k k' v : String) (h : k' ≠ k) :
    mapLookup (mapInsert m k' v) k = mapLookup m k := by
  induction m with
  | nil => simp [mapInsert, mapLookup, h]
  | cons p rest ih =>
    obtain ⟨k₀, v₀⟩ := p
    by_cases h0 : k₀ = k'
    · subst h0
      simp [mapInsert, mapLookup, h]
    · simp [mapInsert, mapLookup, h0, ih]

theorem mapLookup_insert_isSome (m : LocaleMap) (k k' v : String)
    (h : (mapLookup m k).isSome) : (mapLookup (mapInsert m k' v) k).isSome := by
  by_cases hk : k' = k
  · subst hk
    simp [mapLookup_insert_self]
  · rwa [mapLookup_insert_ne m k k' v hk]

theorem mapLookup_isSome_iff_mem (m : LocaleMap) (k : String) :
    (mapLookup m k).isSome ↔ k ∈ m.map Prod.fst := by
  induction m with
  | nil => simp [mapLookup]
  | cons p rest ih =>
    obtain ⟨k', v'⟩ := p
    by_cases h : k' = k
    · subst h
      simp [mapLookup]
    · simp [mapLookup, h, ih, Ne.symm h]

/-- A `Nodup`-keyed association list splits around any bound key. -/
theorem mapLookup_split (m : LocaleMap) (k v : String)
    (hnd : (m.map Prod.fst).Nodup) (h : mapLookup m k = some v) :
    ∃ l1 l2, m = l1 ++ (k, v) :: l2 ∧ k ∉ l1.map Prod.fst ∧ k ∉ l2.map Prod.fst := by
  induction m with
  | nil => simp [mapLookup] at h
  | cons p rest ih =>
    obtain ⟨k', v'⟩ := p
    simp only [List.map_cons, List.nodup_cons] at hnd
    by_cases hk : k' = k
    · subst hk
      have hv : v' = v := by simpa [mapLookup] using h
      subst hv
      refine ⟨[], rest, by simp, by simp, ?_⟩
      exact hnd.1
    · simp only [mapLookup, if_neg hk] at h
      obtain ⟨l1, l2, hm, h1, h2⟩ := ih hnd.2 h
      exact ⟨(k', v') :: l1, l2, by simp [hm], by simpa [Ne.symm hk] using h1, h2⟩

/-! ## Lemmas about `findMissingKeys` and the initialization -/

theorem mem_findMissingKeys (source target : LocaleMap) (k : String) :
    k ∈ findMissingKeys source target ↔
      k ∈ source.map Prod.fst ∧ mapLookup target k = none := by
  simp [findMissingKeys, List.mem_filter, Option.isNone_iff_eq_none]

theorem initFold_frame (c : String → Bool) (ks : List String) (t : LocaleMap) (k : String)
    (hk : k ∉ ks) :
    mapLookup (ks.foldl (fun t k' => if c k' then mapInsert t k' "" else t) t) k
      = mapLookup t k := by
  induction ks generalizing t with
  | nil => rfl
  | cons k' rest ih =>
    simp only [List.mem_cons, not_or] at hk
    simp only [List.foldl_cons]
    rw [ih _ hk.2]
    by_cases hc : c k'
    · simp [hc, mapLookup_insert_ne t k k' "" (Ne.symm hk.1)]
    · simp [hc]

theorem initFold_preserve (c : String → Bool) (ks : List String) (t : LocaleMap) (k : String)
    (h : mapLookup t k = some "") :
    mapLookup (ks.foldl (fun t k' => if c k' then mapInsert t k' "" else t) t) k
      = some "" := by
  induction ks generalizing t with
  | nil => exact h
  | cons k' rest ih =>
    simp only [List.foldl_cons]
    apply ih
    by_cases hc : c k'
    · by_cases hk : k' = k
      · subst hk
        simp [hc, mapLookup_insert_self]
      · simp [hc, mapLookup_insert_ne _ _ _ _ hk, h]
    · simp [hc, h]

theorem initFold_hit (c : String → Bool) (ks : List String) (t : LocaleMap) (k : String)
    (hk : k ∈ ks) (hc : c k) :
    mapLookup (ks.foldl (fun t k' => if c k' then mapInsert t k' "" else t) t) k
      = some "" := by
  induction ks generalizing t with
  | nil => simp at hk
  | cons k' rest ih =>
    simp only [List.foldl_cons]
    by_cases hkk : k' = k
    · subst hkk
      apply initFold_preserve
      simp [hc, mapLookup_insert_self]
    · have : k ∈ rest := by
        rcases List.mem_cons.mp hk with h | h
        · exact absurd h.symm hkk
        · exact h
      exact ih _ this

/-- Value of the initialized target at a key: `some ""` for missing
source keys, otherwise unchanged. -/
theorem initMissingTarget_lookup (source target : LocaleMap) (k : String) :
    mapLookup (initMissingTarget source target) k
      = if k ∈ findMissingKeys source target then some ""
        else mapLookup target k := by
  by_cases hm : k ∈ findMissingKeys source target
  · have hmem := (mem_findMissingKeys source target k).mp hm
    have hs : (mapLookup source k).isSome := (mapLookup_isSome_iff_mem source k).mpr hmem.1
    simp only [initMissingTarget, if_pos hm]
    exact initFold_hit _ _ _ _ hm hs
  · simp only [initMissingTarget, if_neg hm]
    exact initFold_frame _ _ _ _ hm

/-! ## Frame lemmas for the single-item strategy -/

theorem translateArray_calls_key (tr : String → Except Unit String) (k : String)
    (arr : List String) : ∀ c ∈ (translateArray tr k arr).1, c.1 = k := by
  induction arr with
  | nil => simp [translateArray]
  | cons s rest ih =>
    intro c hc
    simp only [translateArray] at hc
    rcases htr : tr s with e | t
    · rw [htr] at hc
      simp at hc
      simp [hc]
    · rw [htr] at hc
      by_cases he : t = "" ∨ t = " "
      · simp [he] at hc
        simp [hc]
      · simp only [if_neg he] at hc
        rcases List.mem_cons.mp hc with h | h
        · simp [h]
        · exact ih c h

/-- Effect of `singleTranslateKey` on observations at a different key. -/
theorem singleTranslateKey_frame (codec : Codec) (tr : String → Except Unit String)
    (s : SingleState) (k2 v k : String) (hk : k ≠ k2) :
    mapLookup (singleTranslateKey codec tr s k2 v).target k = mapLookup s.target k
  ∧ (∀ c, c ∈ (singleTranslateKey codec tr s k2 v).calls → c.1 = k → c ∈ s.calls)
  ∧ (∀ c, c ∈ s.calls → c ∈ (singleTranslateKey codec tr s k2 v).calls)
  ∧ (k ∈ (singleTranslateKey codec tr s k2 v).selected ↔ k ∈ s.selected)
  ∧ (k ∈ (singleTranslateKey codec tr s k2 v).failedKeys ↔ k ∈ s.failedKeys) := by
  have hins := fun x => mapLookup_insert_ne s.target k k2 x (Ne.symm hk)
  have harr := translateArray_calls_key tr k2
  simp only [singleTranslateKey]
  split
  · rename_i arr harrEq
    split
    · rename_i tarr hres
      refine ⟨hins _, ?_, ?_, by simp [hk], by simp⟩
      · intro c hc hck
        rcases List.mem_append.mp hc with h | h
        · exact h
        · rw [harr arr c h] at hck
          exact absurd hck.symm hk
      · intro c hc
        exact List.mem_append.mpr (Or.inl hc)
    · refine ⟨rfl, ?_, ?_, by simp [hk], by simp [hk]⟩
      · intro c hc hck
        rcases List.mem_append.mp hc with h | h
        · exact h
        · rw [harr arr c h] at hck
          exact absurd hck.symm hk
      · intro c hc
        exact List.mem_append.mpr (Or.inl hc)
  · split
    · refine ⟨rfl, ?_, ?_, by simp [hk], by simp [hk]⟩
      · intro c hc hck
        rcases List.mem_append.mp hc with h | h
        · exact h
        · rw [List.mem_singleton.mp h] at hck
          simp at hck
          exact absurd hck.symm hk
      · intro c hc
        exact List.mem_append.mpr (Or.inl hc)
    · rename_i r hr
      split
      · refine ⟨rfl, ?_, ?_, by simp [hk], by simp [hk]⟩
        · intro c hc hck
          rcases List.mem_append.mp hc with h | h
          · exact h
          · rw [List.mem_singleton.mp h] at hck
            simp at hck
            exact absurd hck.symm hk
        · intro c hc
          exact List.mem_append.mpr (Or.inl hc)
      · refine ⟨hins _, ?_, ?_, by simp [hk], by simp⟩
        · intro c hc hck
          rcases List.mem_append.mp hc with h | h
          · exact h
          · rw [List.mem_singleton.mp h] at hck
            simp at hck
            exact absurd hck.symm hk
        · intro c hc
          exact List.mem_append.mpr (Or.inl hc)

/-- One `single_process` loop iteration does not change observations
at a key other than the visited one. -/
theorem singleStep_frame (codec : Codec) (tr : String → Except Unit String)
    (indep : Option LocaleMap) (mode : String) (mk : List String)
    (s : SingleState) (kv : String × String) (k : String) (hk : k ≠ kv.1) :
    mapLookup (singleStep codec tr indep mode mk s kv).target k = mapLookup s.target k
  ∧ (∀ c, c ∈ (singleStep codec tr indep mode mk s kv).calls → c.1 = k → c ∈ s.calls)
  ∧ (∀ c, c ∈ s.calls → c ∈ (singleStep codec tr indep mode mk s kv).calls)
  ∧ (k ∈ (singleStep codec tr indep mode mk s kv).selected ↔ k ∈ s.selected)
  ∧ (k ∈ (singleStep codec tr indep mode mk s kv).failedKeys ↔ k ∈ s.failedKeys) := by
  have htriv : mapLookup s.target k = mapLookup s.target k
      ∧ (∀ c, c ∈ s.calls → c.1 = k → c ∈ s.calls)
      ∧ (∀ c, c ∈ s.calls → c ∈ s.calls)
      ∧ (k ∈ s.selected ↔ k ∈ s.selected)
      ∧ (k ∈ s.failedKeys ↔ k ∈ s.failedKeys) :=
    ⟨rfl, fun _ h _ => h, fun _ h => h, Iff.rfl, Iff.rfl⟩
  simp only [singleStep]
  split
  · exact htriv
  · split
    · exact singleTranslateKey_frame codec tr s kv.1 kv.2 k hk
    · split
      · split
        · exact ⟨mapLookup_insert_ne s.target k kv.1 _ (Ne.symm hk), fun _ h _ => h,
            fun _ h => h, Iff.rfl, Iff.rfl⟩
        · exact htriv
      · split
        · split
          · exact singleTranslateKey_frame codec tr s kv.1 kv.2 k hk
          · exact htriv
        · split
          · split
            · exact singleTranslateKey_frame codec tr s kv.1 kv.2 k hk
            · exact htriv
          · exact htriv

/-- Folding the `single_process` loop over pairs that do not use key
`k` preserves every observation at `k`. -/
theorem singleFold_frame (codec : Codec) (tr : String → Except Unit String)
    (indep : Option LocaleMap) (mode : String) (mk : List String)
    (l : List (String × String)) (s : SingleState) (k : String)
    (hk : k ∉ l.map Prod.fst) :
    mapLookup (l.foldl (singleStep codec tr indep mode mk) s).target k
        = mapLookup s.target k
  ∧ (∀ c, c ∈ (l.foldl (singleStep codec tr indep mode mk) s).calls → c.1 = k → c ∈ s.calls)
  ∧ (∀ c, c ∈ s.calls → c ∈ (l.foldl (singleStep codec tr indep mode mk) s).calls)
  ∧ (k ∈ (l.foldl (singleStep codec tr indep mode mk) s).selected ↔ k ∈ s.selected)
  ∧ (k ∈ (l.foldl (singleStep codec tr indep mode mk) s).failedKeys ↔ k ∈ s.failedKeys) := by
  induction l generalizing s with
  | nil => exact ⟨rfl, fun _ h _ => h, fun _ h => h, Iff.rfl, Iff.rfl⟩
  | cons kv rest ih =>
    simp only [List.map_cons, List.mem_cons, not_or] at hk
    have hstep := singleStep_frame codec tr indep mode mk s kv k hk.1
    have hrest := ih (singleStep codec tr indep mode mk s kv) hk.2
    simp only [List.foldl_cons]
    refine ⟨hrest.1.trans hstep.1, ?_, ?_, hrest.2.2.2.1.trans hstep.2.2.2.1,
      hrest.2.2.2.2.trans hstep.2.2.2.2⟩
    · intro c hc hck
      exact hstep.2.1 c (hrest.2.1 c hc hck) hck
    · intro c hc
      exact hrest.2.2.1 c (hstep.2.2.1 c hc)

/-! ### Behavior of one single-strategy iteration at its own key -/

theorem singleStep_empty_value (codec : Codec) (tr : String → Except Unit String)
    (indep : Option LocaleMap) (mode : String) (mk : List String)
    (s : SingleState) (k v : String) (hv : v.toList = []) :
    singleStep codec tr indep mode mk s (k, v) = s := by
  have hv' : v.data = [] := hv
  simp [singleStep, hv']

theorem singleStep_override_hit (codec : Codec) (tr : String → Except Unit String)
    (ind : LocaleMap) (mode : String) (mk : List String)
    (s : SingleState) (k v tv iv : String) (hv : ¬v.toList = [])
    (ht : mapLookup s.target k = some tv) (hi : mapLookup ind k = some iv) :
    singleStep codec tr (some ind) mode mk s (k, v)
      = { s with target := mapInsert s.target k iv } := by
  have hv' : ¬v.data = [] := hv
  simp [singleStep, hv', ht, hi]

theorem singleStep_override_miss (codec : Codec) (tr : String → Except Unit String)
    (ind : LocaleMap) (mode : String) (mk : List String)
    (s : SingleState) (k v tv : String) (hv : ¬v.toList = [])
    (ht : mapLookup s.target k = some tv) (hi : mapLookup ind k = none) :
    singleStep codec tr (some ind) mode mk s (k, v) = s := by
  have hv' : ¬v.data = [] := hv
  simp [singleStep, hv', ht, hi]

theorem singleStep_full_selects (codec : Codec) (tr : String → Except Unit String)
    (mk : List String) (s : SingleState) (k v tv : String) (hv : ¬v.toList = [])
    (ht : mapLookup s.target k = some tv)
    (hneed : (needFullSingle tv).getD false = true) :
    singleStep codec tr none "full" mk s (k, v) = singleTranslateKey codec tr s k v := by
  have hv' : ¬v.data = [] := hv
  simp [singleStep, hv', ht, hneed]

theorem singleStep_missing_selects (codec : Codec) (tr : String → Except Unit String)
    (mk : List String) (s : SingleState) (k v tv : String) (hv : ¬v.toList = [])
    (ht : mapLookup s.target k = some tv) (hmem : mk.contains k = true) :
    singleStep codec tr none "missing" mk s (k, v) = singleTranslateKey codec tr s k v := by
  have hv' : ¬v.data = [] := hv
  have hmem' : k ∈ mk := by simpa using hmem
  simp [singleStep, hv', ht, hmem']

/-- At its own key, a non-array value that translates to a non-empty
result is written to the target and counted as translated. -/
theorem singleTranslateKey_plain_ok (codec : Codec) (tr : String → Except Unit String)
    (s : SingleState) (k v r : String)
    (hna : ¬(strStartsWith v "[" = true ∧ strEndsWith v "]" = true
              ∧ (codec.parseStringArray v).isSome))
    (htr : tr v = .ok r) (hr : ¬(r = "" ∨ r = " ")) :
    singleTranslateKey codec tr s k v
      = { s with target := mapInsert s.target k r,
                 calls := s.calls ++ [(k, v)],
                 translatedCount := s.translatedCount + 1,
                 selected := s.selected ++ [k] } := by
  have harr : (if strStartsWith v "[" ∧ strEndsWith v "]"
      then codec.parseStringArray v else none) = none := by
    by_cases hb : strStartsWith v "[" = true ∧ strEndsWith v "]" = true
    · rcases hp : codec.parseStringArray v with _ | arr
      · simp [hb, hp]
      · exact absurd ⟨hb.1, hb.2, by simp [hp]⟩ hna
    · simp [hb]
  simp [singleTranslateKey, harr, htr, hr]

/-- At its own key, a non-array value whose translation fails or is
empty records the key as failed and leaves the target untouched. -/
theorem singleTranslateKey_plain_bad (codec : Codec) (tr : String → Except Unit String)
    (s : SingleState) (k v : String)
    (hna : ¬(strStartsWith v "[" = true ∧ strEndsWith v "]" = true
              ∧ (codec.parseStringArray v).isSome))
    (hbad : (∃ e, tr v = .error e) ∨ (∃ r, tr v = .ok r ∧ (r = "" ∨ r = " "))) :
    singleTranslateKey codec tr s k v
      = { s with failedKeys := s.failedKeys ++ [k],
                 calls := s.calls ++ [(k, v)],
                 selected := s.selected ++ [k] } := by
  have harr : (if strStartsWith v "[" ∧ strEndsWith v "]"
      then codec.parseStringArray v else none) = none := by
    by_cases hb : strStartsWith v "[" = true ∧ strEndsWith v "]" = true
    · rcases hp : codec.parseStringArray v with _ | arr
      · simp [hb, hp]
      · exact absurd ⟨hb.1, hb.2, by simp [hp]⟩ hna
    · simp [hb]
  rcases hbad with ⟨e, htr⟩ | ⟨r, htr, hr⟩
  · simp [singleTranslateKey, harr, htr]
  · simp [singleTranslateKey, harr, htr, hr]

/-- The visited key always enters `selected` in `singleTranslateKey`. -/
theorem singleTranslateKey_selected (codec : Codec) (tr : String → Except Unit String)
    (s : SingleState) (k v : String) :
    k ∈ (singleTranslateKey codec tr s k v).selected := by
  simp only [singleTranslateKey]
  split
  · split
    · simp
    · simp
  · split
    · simp
    · split
      · simp
      · simp

/-! ## Frame lemmas for the batch strategy -/

theorem applyResults_frame (t : LocaleMap) (f : List String)
    (l : List ((String × String) × String)) (k : String)
    (hk : ∀ p ∈ l, p.1.1 ≠ k) :
    mapLookup (applyResults t f l).1 k = mapLookup t k
  ∧ (k ∈ (applyResults t f l).2 ↔ k ∈ f) := by
  induction l generalizing t f with
  | nil => exact ⟨rfl, Iff.rfl⟩
  | cons p rest ih =>
    obtain ⟨⟨k2, src⟩, r⟩ := p
    have hk2 : k2 ≠ k := hk _ (List.mem_cons_self _ _)
    have hrest : ∀ p ∈ rest, p.1.1 ≠ k := fun p hp => hk p (List.mem_cons_of_mem _ hp)
    simp only [applyResults]
    split
    · have := ih t (f ++ [k2]) hrest
      exact ⟨this.1, this.2.trans (by simp [Ne.symm hk2])⟩
    · have := ih (mapInsert t k2 r) f hrest
      exact ⟨this.1.trans (mapLookup_insert_ne t k k2 r hk2), this.2⟩

theorem applyResults_failed_mono (t : LocaleMap) (f : List String)
    (l : List ((String × String) × String)) (x : String) (hx : x ∈ f) :
    x ∈ (applyResults t f l).2 := by
  induction l generalizing t f with
  | nil => exact hx
  | cons p rest ih =>
    obtain ⟨⟨k2, src⟩, r⟩ := p
    simp only [applyResults]
    split
    · exact ih _ _ (by simp [hx])
    · exact ih _ _ hx

theorem applyResults_presence (t : LocaleMap) (f : List String)
    (l : List ((String × String) × String)) (k : String)
    (h : (mapLookup t k).isSome) : (mapLookup (applyResults t f l).1 k).isSome := by
  induction l generalizing t f with
  | nil => exact h
  | cons p rest ih =>
    obtain ⟨⟨k2, src⟩, r⟩ := p
    simp only [applyResults]
    split
    · exact ih _ _ h
    · exact ih _ _ (mapLookup_insert_isSome t k k2 r h)

/-- Merging a successful flush whose payload contains key `k` exactly
once, with a non-empty result `r`, writes `r` at `k` and does not
record `k` as failed. -/
theorem applyResults_hit (t : LocaleMap) (f : List String)
    (a b : List ((String × String) × String)) (k src r : String)
    (ha : ∀ p ∈ a, p.1.1 ≠ k) (hb : ∀ p ∈ b, p.1.1 ≠ k)
    (hr : ¬(r = " " ∨ r = "")) :
    mapLookup (applyResults t f (a ++ ((k, src), r) :: b)).1 k = some r
  ∧ (k ∈ (applyResults t f (a ++ ((k, src), r) :: b)).2 ↔ k ∈ f) := by
  induction a generalizing t f with
  | nil =>
    simp only [List.nil_append, applyResults, if_neg hr]
    have := applyResults_frame (mapInsert t k r) f b k hb
    exact ⟨this.1.trans (mapLookup_insert_self t k r), this.2⟩
  | cons p rest ih =>
    obtain ⟨⟨k2, src2⟩, r2⟩ := p
    have hk2 : k2 ≠ k := ha _ (List.mem_cons_self _ _)
    have hrest : ∀ p ∈ rest, p.1.1 ≠ k := fun p hp => ha p (List.mem_cons_of_mem _ hp)
    simp only [List.cons_append, applyResults]
    split
    · have := ih t (f ++ [k2]) hrest
      exact ⟨this.1, this.2.trans (by simp [Ne.symm hk2])⟩
    · exact ih (mapInsert t k2 r2) f hrest

/-- `sendBatch` at a key that is not pending: the target entry, the
failure record and the flush attribution at that key are unchanged, and
the key stays out of the pending lists. -/
theorem sendBatch_frame (bf : List String → Except Unit (List String))
    (s : BatchState) (k : String) (hk : k ∉ s.keys) :
    mapLookup (sendBatch bf s).target k = mapLookup s.target k
  ∧ k ∉ (sendBatch bf s).keys
  ∧ (k ∈ (sendBatch bf s).failedKeys ↔ k ∈ s.failedKeys)
  ∧ (k ∈ (sendBatch bf s).selected ↔ k ∈ s.selected)
  ∧ (flushesAvoid s.flushes k → flushesAvoid (sendBatch bf s).flushes k) := by
  have hzip : ∀ p ∈ s.keys.zip s.batch, p.1 ≠ k := by
    intro p hp
    intro hpk
    exact hk (hpk ▸ (List.of_mem_zip hp).1)
  simp only [sendBatch]
  split
  · exact ⟨rfl, hk, Iff.rfl, Iff.rfl, fun h => h⟩
  · have havoid : ∀ (fls : List (List (String × String))), flushesAvoid fls k →
        flushesAvoid (fls ++ [s.keys.zip s.batch]) k := by
      intro fls h fl hfl p hp
      rcases List.mem_append.mp hfl with h1 | h1
      · exact h fl h1 p hp
      · rw [List.mem_singleton.mp h1] at hp
        exact hzip p hp
    split
    · exact ⟨rfl, hk, by simp [List.mem_append, hk], Iff.rfl, havoid _⟩
    · rename_i results hres
      have hz : ∀ p ∈ (s.keys.zip s.batch).zip results, p.1.1 ≠ k := by
        intro p hp
        exact hzip p.1 (List.of_mem_zip hp).1
      have := applyResults_frame s.target s.failedKeys ((s.keys.zip s.batch).zip results) k hz
      exact ⟨this.1, by simp, this.2, Iff.rfl, havoid _⟩

/-- `batchQueue` at a different, non-pending key preserves all
observations at that key. -/
theorem batchQueue_frame (bf : List String → Except Unit (List String)) (bs : Nat)
    (s : BatchState) (k2 v k : String) (hne : k ≠ k2) (hk : k ∉ s.keys) :
    mapLookup (batchQueue bf bs s k2 v).target k = mapLookup s.target k
  ∧ k ∉ (batchQueue bf bs s k2 v).keys
  ∧ (k ∈ (batchQueue bf bs s k2 v).failedKeys ↔ k ∈ s.failedKeys)
  ∧ (k ∈ (batchQueue bf bs s k2 v).selected ↔ k ∈ s.selected)
  ∧ (flushesAvoid s.flushes k → flushesAvoid (batchQueue bf bs s k2 v).flushes k) := by
  have hk1 : k ∉ s.keys ++ [k2] := by
    simp [List.mem_append, hk, hne]
  simp only [batchQueue]
  split
  · have hsb := sendBatch_frame bf
      { s with batch := s.batch ++ [v], keys := s.keys ++ [k2],
               translatedCount := s.translatedCount + 1,
               selected := s.selected ++ [k2] } k hk1
    refine ⟨hsb.1, hsb.2.1, hsb.2.2.1.trans (by simp), ?_, ?_⟩
    · exact hsb.2.2.2.1.trans (by simp [hne])
    · exact fun h => hsb.2.2.2.2 h
  · exact ⟨rfl, hk1, Iff.rfl, by simp [hne], fun h => h⟩

/-- One `batch_process` loop iteration at a different, non-pending key
preserves all observations at that key. -/
theorem batchStep_frame (bf : List String → Except Unit (List String)) (bs : Nat)
    (indep : Option LocaleMap) (mode : String) (mk : List String)
    (s : BatchState) (kv : String × String) (k : String)
    (hne : k ≠ kv.1) (hk : k ∉ s.keys) :
    mapLookup (batchStep bf bs indep mode mk s kv).target k = mapLookup s.target k
  ∧ k ∉ (batchStep bf bs indep mode mk s kv).keys
  ∧ (k ∈ (batchStep bf bs indep mode mk s kv).failedKeys ↔ k ∈ s.failedKeys)
  ∧ (k ∈ (batchStep bf bs indep mode mk s kv).selected ↔ k ∈ s.selected)
  ∧ (flushesAvoid s.flushes k → flushesAvoid (batchStep bf bs indep mode mk s kv).flushes k) := by
  have htriv : mapLookup s.target k = mapLookup s.target k
      ∧ k ∉ s.keys
      ∧ (k ∈ s.failedKeys ↔ k ∈ s.failedKeys)
      ∧ (k ∈ s.selected ↔ k ∈ s.selected)
      ∧ (flushesAvoid s.flushes k → flushesAvoid s.flushes k) :=
    ⟨rfl, hk, Iff.rfl, Iff.rfl, fun h => h⟩
  simp only [batchStep]
  split
  · exact htriv
  · split
    · exact batchQueue_frame bf bs s kv.1 kv.2 k hne hk
    · split
      · split
        · exact ⟨mapLookup_insert_ne s.target k kv.1 _ (Ne.symm hne), hk, Iff.rfl,
            Iff.rfl, fun h => h⟩
        · exact htriv
      · split
        · split
          · exact batchQueue_frame bf bs s kv.1 kv.2 k hne hk
          · exact htriv
        · split
          · split
            · exact batchQueue_frame bf bs s kv.1 kv.2 k hne hk
            · exact htriv
          · exact htriv

/-- Folding the `batch_process` loop over pairs that do not use a
non-pending key `k` preserves every observation at `k`. -/
theorem batchFold_frame (bf : List String → Except Unit (List String)) (bs : Nat)
    (indep : Option LocaleMap) (mode : String) (mk : List String)
    (l : List (String × String)) (s : BatchState) (k : String)
    (hkl : k ∉ l.map Prod.fst) (hk : k ∉ s.keys) :
    mapLookup (l.foldl (batchStep bf bs indep mode mk) s).target k = mapLookup s.target k
  ∧ k ∉ (l.foldl (batchStep bf bs indep mode mk) s).keys
  ∧ (k ∈ (l.foldl (batchStep bf bs indep mode mk) s).failedKeys ↔ k ∈ s.failedKeys)
  ∧ (k ∈ (l.foldl (batchStep bf bs indep mode mk) s).selected ↔ k ∈ s.selected)
  ∧ (flushesAvoid s.flushes k →
      flushesAvoid (l.foldl (batchStep bf bs indep mode mk) s).flushes k) := by
  induction l generalizing s with
  | nil => exact ⟨rfl, hk, Iff.rfl, Iff.rfl, fun h => h⟩
  | cons kv rest ih =>
    simp only [List.map_cons, List.mem_cons, not_or] at hkl
    have hstep := batchStep_frame bf bs indep mode mk s kv k hkl.1 hk
    have hrest := ih (batchStep bf bs indep mode mk s kv) hkl.2 hstep.2.1
    simp only [List.foldl_cons]
    exact ⟨hrest.1.trans hstep.1, hrest.2.1, hrest.2.2.1.trans hstep.2.2.1,
      hrest.2.2.2.1.trans hstep.2.2.2.1, fun h => hrest.2.2.2.2 (hstep.2.2.2.2 h)⟩

/-! ### Behavior of one batch-strategy iteration at its own key -/

theorem batchStep_empty_value (bf : List String → Except Unit (List String)) (bs : Nat)
    (indep : Option LocaleMap) (mode : String) (mk : List String)
    (s : BatchState) (k v : String) (hv : v.toList = []) :
    batchStep bf bs indep mode mk s (k, v) = s := by
  have hv' : v.data = [] := hv
  simp [batchStep, hv']

theorem batchStep_override_hit (bf : List String → Except Unit (List String)) (bs : Nat)
    (ind : LocaleMap) (mode : String) (mk : List String)
    (s : BatchState) (k v tv iv : String) (hv : ¬v.toList = [])
    (ht : mapLookup s.target k = some tv) (hi : mapLookup ind k = some iv) :
    batchStep bf bs (some ind) mode mk s (k, v)
      = { s with target := mapInsert s.target k iv } := by
  have hv' : ¬v.data = [] := hv
  simp [batchStep, hv', ht, hi]

theorem batchStep_override_miss (bf : List String → Except Unit (List String)) (bs : Nat)
    (ind : LocaleMap) (mode : String) (mk : List String)
    (s : BatchState) (k v tv : String) (hv : ¬v.toList = [])
    (ht : mapLookup s.target k = some tv) (hi : mapLookup ind k = none) :
    batchStep bf bs (some ind) mode mk s (k, v) = s := by
  have hv' : ¬v.data = [] := hv
  simp [batchStep, hv', ht, hi]

theorem batchStep_full_selects (bf : List String → Except Unit (List String)) (bs : Nat)
    (mk : List String) (s : BatchState) (k v tv : String) (hv : ¬v.toList = [])
    (ht : mapLookup s.target k = some tv)
    (hneed : (needFullBatch tv v).getD false = true) :
    batchStep bf bs none "full" mk s (k, v) = batchQueue bf bs s k v := by
  have hv' : ¬v.data = [] := hv
  simp [batchStep, hv', ht, hneed]

theorem batchStep_missing_selects (bf : List String → Except Unit (List String)) (bs : Nat)
    (mk : List String) (s : BatchState) (k v tv : String) (hv : ¬v.toList = [])
    (ht : mapLookup s.target k = some tv) (hmem : mk.contains k = true) :
    batchStep bf bs none "missing" mk s (k, v) = batchQueue bf bs s k v := by
  have hv' : ¬v.data = [] := hv
  have hmem' : k ∈ mk := by simpa using hmem
  simp [batchStep, hv', ht, hmem']

/-- The queued key always enters `selected` (the flush never removes
selected entries). -/
theorem batchQueue_selected (bf : List String → Except Unit (List String)) (bs : Nat)
    (s : BatchState) (k v : String) :
    k ∈ (batchQueue bf bs s k v).selected := by
  simp only [batchQueue]
  split
  · simp only [sendBatch]
    split
    · simp
    · split
      · simp
      · simp
  · simp

/-! ## Monotonicity of the `selected` trace -/

theorem string_toList_eq_nil (s : String) : s.toList = [] ↔ s = "" := by
  cases s with
  | mk data =>
    constructor
    · intro h
      have : data = [] := h
      subst this
      rfl
    · intro h
      rw [h]
      rfl

theorem singleStep_selected_mono (codec : Codec) (tr : String → Except Unit String)
    (indep : Option LocaleMap) (mode : String) (mk : List String)
    (s : SingleState) (kv : String × String) (x : String) (hx : x ∈ s.selected) :
    x ∈ (singleStep codec tr indep mode mk s kv).selected := by
  have htk : ∀ s' k' v', x ∈ SingleState.selected s' →
      x ∈ (singleTranslateKey codec tr s' k' v').selected := by
    intro s' k' v' hx'
    simp only [singleTranslateKey]
    split
    · split
      · simp [hx']
      · simp [hx']
    · split
      · simp [hx']
      · split
        · simp [hx']
        · simp [hx']
  simp only [singleStep]
  split
  · exact hx
  · split
    · exact htk s _ _ hx
    · split
      · split
        · exact hx
        · exact hx
      · split
        · split
          · exact htk s _ _ hx
          · exact hx
        · split
          · split
            · exact htk s _ _ hx
            · exact hx
          · exact hx

theorem singleFold_selected_mono (codec : Codec) (tr : String → Except Unit String)
    (indep : Option LocaleMap) (mode : String) (mk : List String)
    (l : List (String × String)) (s : SingleState) (x : String) (hx : x ∈ s.selected) :
    x ∈ (l.foldl (singleStep codec tr indep mode mk) s).selected := by
  induction l generalizing s with
  | nil => exact hx
  | cons kv rest ih =>
    exact ih _ (singleStep_selected_mono codec tr indep mode mk s kv x hx)

theorem sendBatch_selected_eq (bf : List String → Except Unit (List String))
    (s : BatchState) : (sendBatch bf s).selected = s.selected := by
  simp only [sendBatch]
  split
  · rfl
  · split
    · rfl
    · rfl

theorem batchStep_selected_mono (bf : List String → Except Unit (List String)) (bs : Nat)
    (indep : Option LocaleMap) (mode : String) (mk : List String)
    (s : BatchState) (kv : String × String) (x : String) (hx : x ∈ s.selected) :
    x ∈ (batchStep bf bs indep mode mk s kv).selected := by
  have hq : ∀ s' k' v', x ∈ BatchState.selected s' →
      x ∈ (batchQueue bf bs s' k' v').selected := by
    intro s' k' v' hx'
    simp only [batchQueue]
    split
    · rw [sendBatch_selected_eq]
      simp [hx']
    · simp [hx']
  simp only [batchStep]
  split
  · exact hx
  · split
    · exact hq s _ _ hx
    · split
      · split
        · exact hx
        · exact hx
      · split
        · split
          · exact hq s _ _ hx
          · exact hx
        · split
          · split
            · exact hq s _ _ hx
            · exact hx
          · exact hx

theorem batchFold_selected_mono (bf : List String → Except Unit (List String)) (bs : Nat)
    (indep : Option LocaleMap) (mode : String) (mk : List String)
    (l : List (String × String)) (s : BatchState) (x : String) (hx : x ∈ s.selected) :
    x ∈ (l.foldl (batchStep bf bs indep mode mk) s).selected := by
  induction l generalizing s with
  | nil => exact hx
  | cons kv rest ih =>
    exact ih _ (batchStep_selected_mono bf bs indep mode mk s kv x hx)

/-! ## Decomposition of a whole run around one key -/

/-- A `single_process` run observed at one source key `k` is the
effect of `k`'s own loop iteration, started from a state `s1` that
agrees with the initialized target at `k` and mentions `k` nowhere. -/
theorem single_process_decompose (codec : Codec) (tr : String → Except Unit String)
    (indep : Option LocaleMap) (mode : String) (source target0 : LocaleMap)
    (k v : String) (hnd : (source.map Prod.fst).Nodup)
    (hsv : mapLookup source k = some v) :
    ∃ s1 : SingleState,
      mapLookup s1.target k = mapLookup (initMissingTarget source target0) k
    ∧ (∀ c ∈ s1.calls, c.1 ≠ k)
    ∧ k ∉ s1.selected
    ∧ k ∉ s1.failedKeys
    ∧ (mapLookup (single_process codec tr source target0 indep mode).target k
        = mapLookup (singleStep codec tr indep mode (findMissingKeys source target0)
            s1 (k, v)).target k)
    ∧ (∀ c ∈ (single_process codec tr source target0 indep mode).calls, c.1 = k →
        c ∈ (singleStep codec tr indep mode (findMissingKeys source target0)
            s1 (k, v)).calls)
    ∧ (k ∈ (single_process codec tr source target0 indep mode).selected ↔
        k ∈ (singleStep codec tr indep mode (findMissingKeys source target0)
            s1 (k, v)).selected)
    ∧ (k ∈ (single_process codec tr source target0 indep mode).failedKeys ↔
        k ∈ (singleStep codec tr indep mode (findMissingKeys source target0)
            s1 (k, v)).failedKeys) := by
  obtain ⟨l1, l2, hsplit, h1, h2⟩ := mapLookup_split source k v hnd hsv
  set mk := findMissingKeys source target0 with hmk
  set t1 := initMissingTarget source target0 with ht1
  set s0 : SingleState := ⟨t1, [], [], 0, []⟩ with hs0
  set s1 := l1.foldl (singleStep codec tr indep mode mk) s0 with hs1
  have frame1 := singleFold_frame codec tr indep mode mk l1 s0 k h1
  set s2 := singleStep codec tr indep mode mk s1 (k, v) with hs2
  have frame2 := singleFold_frame codec tr indep mode mk l2 s2 k h2
  have hfold : source.foldl (singleStep codec tr indep mode mk) s0
      = l2.foldl (singleStep codec tr indep mode mk) s2 := by
    rw [hsplit]
    rw [List.foldl_append, List.foldl_cons]
  have hR : single_process codec tr source target0 indep mode
      = ⟨(l2.foldl (singleStep codec tr indep mode mk) s2).target,
         (l2.foldl (singleStep codec tr indep mode mk) s2).failedKeys,
         (l2.foldl (singleStep codec tr indep mode mk) s2).calls,
         (l2.foldl (singleStep codec tr indep mode mk) s2).translatedCount,
         (l2.foldl (singleStep codec tr indep mode mk) s2).selected,
         source.length, .ok ()⟩ := by
    simp only [single_process, ← hmk, ← ht1, ← hs0, hfold]
  refine ⟨s1, frame1.1, ?_, ?_, ?_, ?_, ?_, ?_, ?_⟩
  · intro c hc hck
    exact absurd (frame1.2.1 c hc hck) (by simp [hs0])
  · intro hsel
    exact absurd (frame1.2.2.2.1.mp hsel) (by simp [hs0])
  · intro hfail
    exact absurd (frame1.2.2.2.2.mp hfail) (by simp [hs0])
  · rw [hR]
    exact frame2.1
  · intro c hc hck
    rw [hR] at hc
    exact frame2.2.1 c hc hck
  · rw [hR]
    exact frame2.2.2.2.1
  · rw [hR]
    exact frame2.2.2.2.2

/-- A `batch_process` run observed at one source key `k`, decomposed
around `k`'s own loop iteration. -/
theorem batch_process_decompose (bf : List String → Except Unit (List String)) (bs : Nat)
    (indep : Option LocaleMap) (mode : String) (source target0 : LocaleMap)
    (k v : String) (hnd : (source.map Prod.fst).Nodup)
    (hsv : mapLookup source k = some v) :
    ∃ s1 : BatchState,
      mapLookup s1.target k = mapLookup (initMissingTarget source target0) k
    ∧ k ∉ s1.keys
    ∧ k ∉ s1.selected
    ∧ k ∉ s1.failedKeys
    ∧ flushesAvoid s1.flushes k
    ∧ (k ∈ (batchStep bf bs indep mode (findMissingKeys source target0)
            s1 (k, v)).selected →
        k ∈ (batch_process bf bs source target0 indep mode).selected)
    ∧ (k ∉ (batchStep bf bs indep mode (findMissingKeys source target0) s1 (k, v)).keys →
        mapLookup (batch_process bf bs source target0 indep mode).target k
          = mapLookup (batchStep bf bs indep mode (findMissingKeys source target0)
              s1 (k, v)).target k
        ∧ (k ∈ (batch_process bf bs source target0 indep mode).failedKeys ↔
            k ∈ (batchStep bf bs indep mode (findMissingKeys source target0)
              s1 (k, v)).failedKeys)
        ∧ (flushesAvoid (batchStep bf bs indep mode (findMissingKeys source target0)
              s1 (k, v)).flushes k →
            flushesAvoid (batch_process bf bs source target0 indep mode).flushes k)) := by
  obtain ⟨l1, l2, hsplit, h1, h2⟩ := mapLookup_split source k v hnd hsv
  set mk := findMissingKeys source target0 with hmk
  set t1 := initMissingTarget source target0 with ht1
  set s0 : BatchState := ⟨t1, [], [], [], [], 0, []⟩ with hs0
  set s1 := l1.foldl (batchStep bf bs indep mode mk) s0 with hs1
  have hk0 : k ∉ s0.keys := by simp [hs0]
  have frame1 := batchFold_frame bf bs indep mode mk l1 s0 k h1 hk0
  set s2 := batchStep bf bs indep mode mk s1 (k, v) with hs2
  set sF := l2.foldl (batchStep bf bs indep mode mk) s2 with hsF
  have hfold : source.foldl (batchStep bf bs indep mode mk) s0 = sF := by
    rw [hsplit]
    rw [List.foldl_append, List.foldl_cons]
  set sL := if sF.batch = [] then sF else sendBatch bf sF with hsL
  have hR : batch_process bf bs source target0 indep mode
      = ⟨sL.target, sL.batch, sL.keys, sL.failedKeys, sL.flushes, sL.translatedCount,
         sL.selected, source.length, .ok ()⟩ := by
    simp only [batch_process, ← hmk, ← ht1, ← hs0, hfold, ← hsL]
  refine ⟨s1, frame1.1, frame1.2.1, ?_, ?_, ?_, ?_, ?_⟩
  · intro hsel
    exact absurd (frame1.2.2.2.1.mp hsel) (by simp [hs0])
  · intro hfail
    exact absurd (frame1.2.2.1.mp hfail) (by simp [hs0])
  · apply frame1.2.2.2.2
    intro fl hfl
    simp [hs0] at hfl
  · intro hsel
    rw [hR]
    have hselF : k ∈ sF.selected := batchFold_selected_mono bf bs indep mode mk l2 s2 k hsel
    simp only [hsL]
    split
    · exact hselF
    · rw [sendBatch_selected_eq]
      exact hselF
  · intro hk2
    have frame2 := batchFold_frame bf bs indep mode mk l2 s2 k h2 hk2
    have hkF : k ∉ sF.keys := frame2.2.1
    have hsend := sendBatch_frame bf sF k hkF
    rw [hR]
    simp only [hsL]
    constructor
    · split
      · exact frame2.1
      · exact hsend.1.trans frame2.1
    constructor
    · split
      · exact frame2.2.2.1
      · exact hsend.2.2.1.trans frame2.2.2.1
    · intro havoid
      have havoidF : flushesAvoid sF.flushes k := frame2.2.2.2.2 havoid
      split
      · exact havoidF
      · exact hsend.2.2.2.2 havoidF

/-! ## The initialized target at specific keys -/

theorem initMissing_at_absent (source target0 : LocaleMap) (k : String)
    (hk : (mapLookup source k).isSome) (ht : mapLookup target0 k = none) :
    mapLookup (initMissingTarget source target0) k = some "" := by
  rw [initMissingTarget_lookup]
  rw [if_pos]
  exact (mem_findMissingKeys source target0 k).mpr
    ⟨(mapLookup_isSome_iff_mem source k).mp hk, ht⟩

theorem initMissing_at_present (source target0 : LocaleMap) (k tv : String)
    (ht : mapLookup target0 k = some tv) :
    mapLookup (initMissingTarget source target0) k = some tv := by
  rw [initMissingTarget_lookup, if_neg]
  · exact ht
  · intro hm
    have := (mem_findMissingKeys source target0 k).mp hm
    rw [ht] at this
    exact Option.noConfusion this.2

theorem contains_of_mem {k : String} {l : List String} (h : k ∈ l) :
    l.contains k = true := by
  simpa using h

theorem mem_missing_of_absent (source target0 : LocaleMap) (k : String)
    (hk : (mapLookup source k).isSome) (ht : mapLookup target0 k = none) :
    k ∈ findMissingKeys source target0 :=
  (mem_findMissingKeys source target0 k).mpr
    ⟨(mapLookup_isSome_iff_mem source k).mp hk, ht⟩

/-! ## Claim C2 -/

/-- C2 (corrected).  For a source key whose value is the empty string,
no translation call is ever issued for that key and a pre-existing
target entry is left unchanged, under either strategy, any mode, with
or without an override map; but a key absent from the target map does
NOT stay absent: the missing-key initialization adds it with the empty
string, so the final target entry is `some ((mapLookup target0 k).getD "")`
rather than `mapLookup target0 k` itself. -/
theorem C2_empty_source_value (codec : Codec) (tr : String → Except Unit String)
    (bf : List String → Except Unit (List String)) (bs : Nat)
    (source target0 : LocaleMap) (indep : Option LocaleMap) (mode : String)
    (k : String) (hnd : (source.map Prod.fst).Nodup)
    (hsv : mapLookup source k = some "") :
      mapLookup (single_process codec tr source target0 indep mode).target k
        = some ((mapLookup target0 k).getD "")
    ∧ (∀ c ∈ (single_process codec tr source target0 indep mode).calls, c.1 ≠ k)
    ∧ mapLookup (batch_process bf bs source target0 indep mode).target k
        = some ((mapLookup target0 k).getD "")
    ∧ flushesAvoid (batch_process bf bs source target0 indep mode).flushes k := by
  have hkSome : (mapLookup source k).isSome := by rw [hsv]; rfl
  have hinit : mapLookup (initMissingTarget source target0) k
      = some ((mapLookup target0 k).getD "") := by
    rcases ht : mapLookup target0 k with _ | tv
    · simpa using initMissing_at_absent source target0 k hkSome ht
    · simpa using initMissing_at_present source target0 k tv ht
  obtain ⟨s1, ht1, hcalls, _, _, hRt, hRc, _, _⟩ :=
    single_process_decompose codec tr indep mode source target0 k "" hnd hsv
  have hstep := singleStep_empty_value codec tr indep mode
    (findMissingKeys source target0) s1 k "" rfl
  obtain ⟨b1, hbt1, hbkeys, _, _, hbavoid, _, hbframe⟩ :=
    batch_process_decompose bf bs indep mode source target0 k "" hnd hsv
  have hbstep := batchStep_empty_value bf bs indep mode
    (findMissingKeys source target0) b1 k "" rfl
  have hbf := hbframe (by rw [hbstep]; exact hbkeys)
  refine ⟨?_, ?_, ?_, ?_⟩
  · rw [hRt, hstep, ht1, hinit]
  · intro c hc hck
    rw [hstep] at hRc
    exact hcalls c (hRc c hc hck) hck
  · rw [hbf.1, hbstep, hbt1, hinit]
  · apply hbf.2.2
    rw [hbstep]
    exact hbavoid

/-- C2 counterexample: with source `{"a": ""}` and an empty target, the
key `a` is absent from the target before processing and present (bound
to the empty string) after it, under both strategies. -/
theorem C2_counterexample :
    mapLookup ([] : LocaleMap) "a" = none
  ∧ (single_process simpleCodec trPrefix [("a", "")] [] none "full").target = [("a", "")]
  ∧ (batch_process (mapTr trPrefix) 1 [("a", "")] [] none "full").target = [("a", "")] := by
  refine ⟨rfl, ?_, ?_⟩
  · decide
  · decide

/-- C2 witness: the corrected statement evaluated at a concrete input
with one pre-existing key and one absent key. -/
theorem C2_witness :
    mapLookup (single_process simpleCodec trPrefix [("a", ""), ("b", "x")]
      [("a", "old")] none "missing").target "a" = some "old"
  ∧ flushesAvoid (batch_process (mapTr trPrefix) 1 [("a", ""), ("b", "x")]
      [("a", "old")] none "missing").flushes "a" := by
  have h := C2_empty_source_value simpleCodec trPrefix (mapTr trPrefix) 1
    [("a", ""), ("b", "x")] [("a", "old")] none "missing" "a" (by decide) (by decide)
  exact ⟨by simpa using h.1, h.2.2.2⟩

/-! ## Claim C3 -/

/-- C3 (corrected).  A source key with a non-empty value and no target
entry at the start of processing is first initialized to the empty
string, after which: with NO override map supplied it is selected for
translation in both `full` and `missing` mode under both strategies;
but when an override map IS supplied the no-entry rule does not fire
(the key now has an entry), so no translation is attempted for the key:
the override value is applied when the map contains the key, and
otherwise the key is skipped with its initialized empty value. -/
theorem C3_missing_key_decision (codec : Codec) (tr : String → Except Unit String)
    (bf : List String → Except Unit (List String)) (bs : Nat)
    (source target0 ind : LocaleMap) (mode : String) (k v : String)
    (hnd : (source.map Prod.fst).Nodup) (hsv : mapLookup source k = some v)
    (hv : v ≠ "") (htv : mapLookup target0 k = none)
    (hmode : mode = "full" ∨ mode = "missing") :
      k ∈ (single_process codec tr source target0 none mode).selected
    ∧ k ∈ (batch_process bf bs source target0 none mode).selected
    ∧ (∀ c ∈ (single_process codec tr source target0 (some ind) mode).calls, c.1 ≠ k)
    ∧ mapLookup (single_process codec tr source target0 (some ind) mode).target k
        = some ((mapLookup ind k).getD "")
    ∧ flushesAvoid (batch_process bf bs source target0 (some ind) mode).flushes k
    ∧ mapLookup (batch_process bf bs source target0 (some ind) mode).target k
        = some ((mapLookup ind k).getD "") := by
  have hkSome : (mapLookup source k).isSome := by rw [hsv]; rfl
  have hvl : ¬v.toList = [] := fun h => hv ((string_toList_eq_nil v).mp h)
  have hinit : mapLookup (initMissingTarget source target0) k = some "" :=
    initMissing_at_absent source target0 k hkSome htv
  have hmem : (findMissingKeys source target0).contains k = true :=
    contains_of_mem (mem_missing_of_absent source target0 k hkSome htv)
  have hneedS : (needFullSingle "").getD false = true := by decide
  have hneedB : (needFullBatch "" v).getD false = true := by
    simp [needFullBatch]
  refine ⟨?_, ?_, ?_, ?_, ?_, ?_⟩
  · obtain ⟨s1, ht1, _, _, _, _, _, hRsel, _⟩ :=
      single_process_decompose codec tr none mode source target0 k v hnd hsv
    have htk : mapLookup s1.target k = some "" := ht1.trans hinit
    have hstep : singleStep codec tr none mode (findMissingKeys source target0) s1 (k, v)
        = singleTranslateKey codec tr s1 k v := by
      rcases hmode with hm | hm
      · rw [hm]
        exact singleStep_full_selects codec tr _ s1 k v "" hvl htk hneedS
      · rw [hm]
        exact singleStep_missing_selects codec tr _ s1 k v "" hvl htk hmem
    apply hRsel.mpr
    rw [hstep]
    exact singleTranslateKey_selected codec tr s1 k v
  · obtain ⟨b1, hbt1, _, _, _, _, hbsel, _⟩ :=
      batch_process_decompose bf bs none mode source target0 k v hnd hsv
    have htk : mapLookup b1.target k = some "" := hbt1.trans hinit
    have hstep : batchStep bf bs none mode (findMissingKeys source target0) b1 (k, v)
        = batchQueue bf bs b1 k v := by
      rcases hmode with hm | hm
      · rw [hm]
        exact batchStep_full_selects bf bs _ b1 k v "" hvl htk hneedB
      · rw [hm]
        exact batchStep_missing_selects bf bs _ b1 k v "" hvl htk hmem
    apply hbsel
    rw [hstep]
    exact batchQueue_selected bf bs b1 k v
  · obtain ⟨s1, ht1, hcalls, _, _, _, hRc, _, _⟩ :=
      single_process_decompose codec tr (some ind) mode source target0 k v hnd hsv
    have htk : mapLookup s1.target k = some "" := ht1.trans hinit
    intro c hc hck
    rcases hik : mapLookup ind k with _ | iv
    · have hstep := singleStep_override_miss codec tr ind mode
        (findMissingKeys source target0) s1 k v "" hvl htk hik
      rw [hstep] at hRc
      exact hcalls c (hRc c hc hck) hck
    · have hstep := singleStep_override_hit codec tr ind mode
        (findMissingKeys source target0) s1 k v "" iv hvl htk hik
      rw [hstep] at hRc
      exact hcalls c (hRc c hc hck) hck
  · obtain ⟨s1, ht1, _, _, _, hRt, _, _, _⟩ :=
      single_process_decompose codec tr (some ind) mode source target0 k v hnd hsv
    have htk : mapLookup s1.target k = some "" := ht1.trans hinit
    rcases hik : mapLookup ind k with _ | iv
    · have hstep := singleStep_override_miss codec tr ind mode
        (findMissingKeys source target0) s1 k v "" hvl htk hik
      rw [hRt, hstep, htk]
      rfl
    · have hstep := singleStep_override_hit codec tr ind mode
        (findMissingKeys source target0) s1 k v "" iv hvl htk hik
      rw [hRt, hstep]
      simp [mapLookup_insert_self]
  · obtain ⟨b1, hbt1, hbkeys, _, _, hbavoid, _, hbframe⟩ :=
      batch_process_decompose bf bs (some ind) mode source target0 k v hnd hsv
    have htk : mapLookup b1.target k = some "" := hbt1.trans hinit
    rcases hik : mapLookup ind k with _ | iv
    · have hstep := batchStep_override_miss bf bs ind mode
        (findMissingKeys source target0) b1 k v "" hvl htk hik
      have hbf := hbframe (by rw [hstep]; exact hbkeys)
      apply hbf.2.2
      rw [hstep]
      exact hbavoid
    · have hstep := batchStep_override_hit bf bs ind mode
        (findMissingKeys source target0) b1 k v "" iv hvl htk hik
      have hbf := hbframe (by rw [hstep]; exact hbkeys)
      apply hbf.2.2
      rw [hstep]
      exact hbavoid
  · obtain ⟨b1, hbt1, hbkeys, _, _, _, _, hbframe⟩ :=
      batch_process_decompose bf bs (some ind) mode source target0 k v hnd hsv
    have htk : mapLookup b1.target k = some "" := hbt1.trans hinit
    rcases hik : mapLookup ind k with _ | iv
    · have hstep := batchStep_override_miss bf bs ind mode
        (findMissingKeys source target0) b1 k v "" hvl htk hik
      have hbf := hbframe (by rw [hstep]; exact hbkeys)
      rw [hbf.1, hstep, htk]
      rfl
    · have hstep := batchStep_override_hit bf bs ind mode
        (findMissingKeys source target0) b1 k v "" iv hvl htk hik
      have hbf := hbframe (by rw [hstep]; exact hbkeys)
      rw [hbf.1, hstep]
      simp [mapLookup_insert_self]

/-- C3 counterexample: source `{"a": "x"}`, empty target, override map
`{"a": "OV"}`.  The claim asserts a translation call is attempted for
`a` regardless of the override map; in fact neither strategy issues any
call (no single-item call, no flush), and the override value is written
instead. -/
theorem C3_counterexample :
    (single_process simpleCodec trPrefix [("a", "x")] [] (some [("a", "OV")]) "full").calls = []
  ∧ (single_process simpleCodec trPrefix [("a", "x")] [] (some [("a", "OV")]) "full").target
      = [("a", "OV")]
  ∧ (batch_process (mapTr trPrefix) 1 [("a", "x")] [] (some [("a", "OV")]) "missing").flushes = []
  ∧ (batch_process (mapTr trPrefix) 1 [("a", "x")] [] (some [("a", "OV")]) "missing").target
      = [("a", "OV")] := by
  refine ⟨?_, ?_, ?_, ?_⟩ <;> decide

/-- C3 witness: the corrected statement evaluated concretely, both with
and without an override map. -/
theorem C3_witness :
    "b" ∈ (single_process simpleCodec trPrefix [("b", "y")] [] none "missing").selected
  ∧ mapLookup (single_process simpleCodec trPrefix [("b", "y")] []
      (some [("b", "OV")]) "missing").target "b" = some "OV" := by
  have h := C3_missing_key_decision simpleCodec trPrefix (mapTr trPrefix) 1
    [("b", "y")] [] [("b", "OV")] "missing" "b" "y" (by decide) (by decide)
    (by decide) (by decide) (Or.inr rfl)
  exact ⟨h.1, by simpa using h.2.2.2.1⟩

/-! ## Claim C5 -/

/-- C5 (confirmed).  A key present in the override map, with non-empty
source value and a pre-existing target entry, ends with the override
value as its final target value under both strategies and any mode, and
no translation call is issued for it (no single-item call mentions the
key and no flush payload contains it). -/
theorem C5_override_applied (codec : Codec) (tr : String → Except Unit String)
    (bf : List String → Except Unit (List String)) (bs : Nat)
    (source target0 ind : LocaleMap) (mode : String) (k v tv0 ov : String)
    (hnd : (source.map Prod.fst).Nodup) (hsv : mapLookup source k = some v)
    (hv : v ≠ "") (htv0 : mapLookup target0 k = some tv0)
    (hov : mapLookup ind k = some ov) :
      mapLookup (single_process codec tr source target0 (some ind) mode).target k
        = some ov
    ∧ (∀ c ∈ (single_process codec tr source target0 (some ind) mode).calls, c.1 ≠ k)
    ∧ k ∉ (single_process codec tr source target0 (some ind) mode).failedKeys
    ∧ mapLookup (batch_process bf bs source target0 (some ind) mode).target k
        = some ov
    ∧ flushesAvoid (batch_process bf bs source target0 (some ind) mode).flushes k
    ∧ k ∉ (batch_process bf bs source target0 (some ind) mode).failedKeys := by
  have hvl : ¬v.toList = [] := fun h => hv ((string_toList_eq_nil v).mp h)
  have hinit : mapLookup (initMissingTarget source target0) k = some tv0 :=
    initMissing_at_present source target0 k tv0 htv0
  obtain ⟨s1, ht1, hcalls, _, hfail1, hRt, hRc, _, hRf⟩ :=
    single_process_decompose codec tr (some ind) mode source target0 k v hnd hsv
  have htk : mapLookup s1.target k = some tv0 := ht1.trans hinit
  have hstep := singleStep_override_hit codec tr ind mode
    (findMissingKeys source target0) s1 k v tv0 ov hvl htk hov
  obtain ⟨b1, hbt1, hbkeys, _, hbfail1, hbavoid, _, hbframe⟩ :=
    batch_process_decompose bf bs (some ind) mode source target0 k v hnd hsv
  have hbtk : mapLookup b1.target k = some tv0 := hbt1.trans hinit
  have hbstep := batchStep_override_hit bf bs ind mode
    (findMissingKeys source target0) b1 k v tv0 ov hvl hbtk hov
  have hbf := hbframe (by rw [hbstep]; exact hbkeys)
  refine ⟨?_, ?_, ?_, ?_, ?_, ?_⟩
  · rw [hRt, hstep]
    simp [mapLookup_insert_self]
  · intro c hc hck
    rw [hstep] at hRc
    exact hcalls c (hRc c hc hck) hck
  · intro hf
    rw [hstep] at hRf
    exact hfail1 (hRf.mp hf)
  · rw [hbf.1, hbstep]
    simp [mapLookup_insert_self]
  · apply hbf.2.2
    rw [hbstep]
    exact hbavoid
  · intro hf
    rw [hbstep] at hbf
    exact hbfail1 (hbf.2.1.mp hf)

/-- C5 witness: the override value survives processing at a concrete
input, under both strategies, with no call for the key. -/
theorem C5_witness :
    mapLookup (single_process simpleCodec trPrefix [("a", "Hello")]
      [("a", "Bonjour")] (some [("a", "Salut")]) "full").target "a" = some "Salut"
  ∧ mapLookup (batch_process (mapTr trPrefix) 2 [("a", "Hello")]
      [("a", "Bonjour")] (some [("a", "Salut")]) "full").target "a" = some "Salut"
  ∧ (∀ c ∈ (single_process simpleCodec trPrefix [("a", "Hello")]
      [("a", "Bonjour")] (some [("a", "Salut")]) "full").calls, c.1 ≠ "a") := by
  have h := C5_override_applied simpleCodec trPrefix (mapTr trPrefix) 2
    [("a", "Hello")] [("a", "Bonjour")] [("a", "Salut")] "full" "a" "Hello" "Bonjour" "Salut"
    (by decide) (by decide) (by decide) (by decide) (by decide)
  exact ⟨h.1, h.2.2.2.1, h.2.1⟩

/-! ## Claim C10 -/

/-- C10 (confirmed).  The sentinel test that indexes the first
character of a target value is always guarded: in the faithful
`Option`-valued embedding of both full-mode predicates, where indexing
the empty string yields `none` (the Go expression would panic), the
result is `some` for every target and source value, so the index access
`target[k][0]` is always in bounds. -/
theorem C10_sentinel_guarded (tv v : String) :
    (needFullSingle tv).isSome = true ∧ (needFullBatch tv v).isSome = true := by
  have htl : tv.toList = tv.data := rfl
  constructor
  · rw [needFullSingle]
    rcases hd : tv.data with _ | ⟨c, cs⟩
    · rw [if_pos (htl.trans hd)]
      rfl
    · rw [if_neg (by rw [htl, hd]; simp)]
      simp [sentinelAt0, htl, hd]
  · rw [needFullBatch]
    by_cases he : (equalFold tv v = true) ∨ tv.toList = []
    · rw [if_pos he]
      rfl
    · rw [if_neg he]
      have h2 : ¬tv.toList = [] := fun hh => he (Or.inr hh)
      rcases hd : tv.data with _ | ⟨c, cs⟩
      · exact absurd (htl.trans hd) h2
      · simp [sentinelAt0, htl, hd]

/-! ## Claim C1 -/

/-- C1 (corrected).  When a flush fails as a whole, every pending key
is recorded as failed and no target value is touched — but the batch is
NOT cleared: `sendBatch` returns before the clearing statements, so the
pending `batch`/`keys` keep their contents, the failed items are
re-sent in the next flush together with later-selected keys, and such
keys can be recorded as failed yet still overwritten later. -/
theorem C1_batch_failure_keeps_batch (bf : List String → Except Unit (List String))
    (s : BatchState) (hnb : ¬s.batch = []) (he : bf s.batch = .error ()) :
    sendBatch bf s
      = { s with failedKeys := s.failedKeys ++ s.keys,
                 flushes := s.flushes ++ [s.keys.zip s.batch] } := by
  simp [sendBatch, hnb, he]

/-- C1 witness: the failure equation evaluated at a concrete pending
state — the batch and keys are kept, the key is recorded failed. -/
theorem C1_witness :
    (sendBatch bfErrAll sC1).batch = ["x"]
  ∧ (sendBatch bfErrAll sC1).keys = ["a"]
  ∧ (sendBatch bfErrAll sC1).failedKeys = ["a"]
  ∧ (sendBatch bfErrAll sC1).target = [("b", "old")] := by
  have h := C1_batch_failure_keeps_batch bfErrAll sC1 (by decide) rfl
  rw [h]
  exact ⟨rfl, rfl, rfl, rfl⟩

/-- C1 counterexample: batch size 1, source `{"a": "x", "b": "y"}`,
batch translator failing exactly on payload `["x"]`.  The first flush
(`a` alone) fails; the claim says the batch is then cleared, so the
second flush would contain only `b` — in fact the second flush is
`[a, b]`, re-sending the key selected before the failure, which then
succeeds and overwrites `a` although `a` stays recorded as failed. -/
theorem C1_counterexample :
    (batch_process bfPartial 1 [("a", "x"), ("b", "y")] [] none "missing").flushes
      = [[("a", "x")], [("a", "x"), ("b", "y")]]
  ∧ (batch_process bfPartial 1 [("a", "x"), ("b", "y")] [] none "missing").failedKeys
      = ["a"]
  ∧ mapLookup (batch_process bfPartial 1 [("a", "x"), ("b", "y")] []
      none "missing").target "a" = some "T:x" := by
  refine ⟨?_, ?_, ?_⟩ <;> decide

/-! ## Count invariants (for C9) -/

theorem singleTranslateKey_count (codec : Codec) (tr : String → Except Unit String)
    (s : SingleState) (k v : String)
    (h : s.translatedCount + s.failedKeys.length = s.selected.length) :
    (singleTranslateKey codec tr s k v).translatedCount
      + (singleTranslateKey codec tr s k v).failedKeys.length
      = (singleTranslateKey codec tr s k v).selected.length := by
  simp only [singleTranslateKey]
  split
  · split
    · simp only [List.length_append, List.length_cons, List.length_nil]
      omega
    · simp only [List.length_append, List.length_cons, List.length_nil]
      omega
  · split
    · simp only [List.length_append, List.length_cons, List.length_nil]
      omega
    · split
      · simp only [List.length_append, List.length_cons, List.length_nil]
        omega
      · simp only [List.length_append, List.length_cons, List.length_nil]
        omega

theorem singleStep_count (codec : Codec) (tr : String → Except Unit String)
    (indep : Option LocaleMap) (mode : String) (mk : List String)
    (s : SingleState) (kv : String × String)
    (h : s.translatedCount + s.failedKeys.length = s.selected.length) :
    (singleStep codec tr indep mode mk s kv).translatedCount
      + (singleStep codec tr indep mode mk s kv).failedKeys.length
      = (singleStep codec tr indep mode mk s kv).selected.length := by
  simp only [singleStep]
  split
  · exact h
  · split
    · exact singleTranslateKey_count codec tr s kv.1 kv.2 h
    · split
      · split
        · exact h
        · exact h
      · split
        · split
          · exact singleTranslateKey_count codec tr s kv.1 kv.2 h
          · exact h
        · split
          · split
            · exact singleTranslateKey_count codec tr s kv.1 kv.2 h
            · exact h
          · exact h

theorem sendBatch_count (bf : List String → Except Unit (List String)) (s : BatchState)
    (h : s.translatedCount = s.selected.length) :
    (sendBatch bf s).translatedCount = (sendBatch bf s).selected.length := by
  simp only [sendBatch]
  split
  · exact h
  · split
    · exact h
    · exact h

theorem batchStep_count (bf : List String → Except Unit (List String)) (bs : Nat)
    (indep : Option LocaleMap) (mode : String) (mk : List String)
    (s : BatchState) (kv : String × String)
    (h : s.translatedCount = s.selected.length) :
    (batchStep bf bs indep mode mk s kv).translatedCount
      = (batchStep bf bs indep mode mk s kv).selected.length := by
  have hq : ∀ s' k' v', BatchState.translatedCount s' = (BatchState.selected s').length →
      (batchQueue bf bs s' k' v').translatedCount
        = (batchQueue bf bs s' k' v').selected.length := by
    intro s' k' v' h'
    simp only [batchQueue]
    split
    · apply sendBatch_count
      simp [h']
    · simp [h']
  simp only [batchStep]
  split
  · exact h
  · split
    · exact hq s kv.1 kv.2 h
    · split
      · split
        · exact h
        · exact h
      · split
        · split
          · exact hq s kv.1 kv.2 h
          · exact h
        · split
          · split
            · exact hq s kv.1 kv.2 h
            · exact h
          · exact h

theorem singleFold_count (codec : Codec) (tr : String → Except Unit String)
    (indep : Option LocaleMap) (mode : String) (mk : List String)
    (l : List (String × String)) (s : SingleState)
    (h : s.translatedCount + s.failedKeys.length = s.selected.length) :
    (l.foldl (singleStep codec tr indep mode mk) s).translatedCount
      + (l.foldl (singleStep codec tr indep mode mk) s).failedKeys.length
      = (l.foldl (singleStep codec tr indep mode mk) s).selected.length := by
  induction l generalizing s with
  | nil => exact h
  | cons kv rest ih =>
    exact ih _ (singleStep_count codec tr indep mode mk s kv h)

theorem batchFold_count (bf : List String → Except Unit (List String)) (bs : Nat)
    (indep : Option LocaleMap) (mode : String) (mk : List String)
    (l : List (String × String)) (s : BatchState)
    (h : s.translatedCount = s.selected.length) :
    (l.foldl (batchStep bf bs indep mode mk) s).translatedCount
      = (l.foldl (batchStep bf bs indep mode mk) s).selected.length := by
  induction l generalizing s with
  | nil => exact h
  | cons kv rest ih =>
    exact ih _ (batchStep_count bf bs indep mode mk s kv h)

/-! ## Claim C9 -/

/-- C9 (corrected).  The counts are computed by each call, but only as
console/sidecar output: the Go functions return just an `error`,
modelled by the constant `ret` component, which is `ok` whenever
serialization and the file write succeed and carries no counts.  The
counts do satisfy the expected bookkeeping (in the single strategy
`translated + failed` equals the number of selected keys; the batch
strategy counts keys when queued), but they are not part of the
returned value. -/
theorem C9_counts_not_returned (codec : Codec) (tr : String → Except Unit String)
    (bf : List String → Except Unit (List String)) (bs : Nat)
    (source target0 : LocaleMap) (indep : Option LocaleMap) (mode : String) :
      (single_process codec tr source target0 indep mode).ret = .ok ()
    ∧ (batch_process bf bs source target0 indep mode).ret = .ok ()
    ∧ (single_process codec tr source target0 indep mode).translatedCount
        + (single_process codec tr source target0 indep mode).failedKeys.length
        = (single_process codec tr source target0 indep mode).selected.length
    ∧ (batch_process bf bs source target0 indep mode).translatedCount
        = (batch_process bf bs source target0 indep mode).selected.length := by
  refine ⟨rfl, rfl, ?_, ?_⟩
  · simp only [single_process]
    exact singleFold_count codec tr indep mode _ source _ (by simp)
  · simp only [batch_process]
    have hF := batchFold_count bf bs indep mode (findMissingKeys source target0) source
      ⟨initMissingTarget source target0, [], [], [], [], 0, []⟩ (by simp)
    split
    · exact hF
    · exact sendBatch_count bf _ hF

/-- C9 counterexample: two runs with different failed counts (one
translator succeeds, the other returns only empty results) produce
identical returned values, so the count summary is not an observable
part of the call's returned value — it exists only in console/sidecar
output. -/
theorem C9_counterexample :
    (single_process simpleCodec trPrefix [("a", "x")] [] none "missing").ret
      = (single_process simpleCodec trEmpty [("a", "x")] [] none "missing").ret
  ∧ (single_process simpleCodec trPrefix [("a", "x")] [] none "missing").failedKeys.length = 0
  ∧ (single_process simpleCodec trEmpty [("a", "x")] [] none "missing").failedKeys.length = 1 := by
  refine ⟨rfl, ?_, ?_⟩ <;> decide

/-! ## Claim C6 -/

/-- C6 (confirmed).  `Translate` makes at most 3 attempts; a response
whose trimmed content is empty is classified as a failed attempt
(`emptyResult`) and, when it is not the last attempt, a further attempt
is made; and when all 3 attempts fail the call returns no string — only
an error wrapping the last observed cause. -/
theorem C6_translate_retries (oracle : Nat → CallResult) :
    (gptTranslate oracle).2 ≤ 3
  ∧ (∀ s, trimS s = "" → translateAttempt (.content s) = .error .emptyResult)
  ∧ (∀ e0, translateAttempt (oracle 0) = .error e0 → 2 ≤ (gptTranslate oracle).2)
  ∧ (∀ e0 e1 e2, translateAttempt (oracle 0) = .error e0 →
      translateAttempt (oracle 1) = .error e1 →
      translateAttempt (oracle 2) = .error e2 →
      (gptTranslate oracle).1 = .error (some e2)) := by
  refine ⟨?_, ?_, ?_, ?_⟩
  · rcases h0 : translateAttempt (oracle 0) with e0 | s0
    · rcases h1 : translateAttempt (oracle 1) with e1 | s1
      · rcases h2 : translateAttempt (oracle 2) with e2 | s2
        · simp [gptTranslate, retryFrom, h0, h1, h2]
        · simp [gptTranslate, retryFrom, h0, h1, h2]
      · simp [gptTranslate, retryFrom, h0, h1]
    · simp [gptTranslate, retryFrom, h0]
  · intro s hs
    simp [translateAttempt, hs]
  · intro e0 h0
    simp only [gptTranslate, retryFrom, h0]
    rcases h1 : translateAttempt (oracle 1) with e1 | s1
    · simp [retryFrom, h1]
    · simp [retryFrom, h1]
  · intro e0 e1 e2 h0 h1 h2
    simp [gptTranslate, retryFrom, h0, h1, h2]

/-- C6 witness: the oracle answering whitespace-only content on every
attempt exhausts all 3 attempts and surfaces the empty-result cause. -/
theorem C6_witness :
    (gptTranslate ocBlank).2 ≤ 3
  ∧ (gptTranslate ocBlank).1 = .error (some .emptyResult)
  ∧ trimS " " = "" := by
  have h := C6_translate_retries ocBlank
  exact ⟨h.1, h.2.2.2 .emptyResult .emptyResult .emptyResult rfl rfl rfl, rfl⟩

/-! ## Claim C7 -/

/-- Every `ok` outcome of one `BatchTranslate` parsing attempt passes a
length check equal to the input length: each of the three fallbacks is
accepted only under `len == len(texts)`. -/
theorem batchParseContent_ok_length (po pa : String → Option (List String))
    (n : Nat) (c : String) (ts : List String)
    (h : batchParseContent po pa n c = .ok ts) : ts.length = n := by
  simp only [batchParseContent] at h
  repeat' split at h
  all_goals
    first
      | exact Except.noConfusion h
      | (injection h with h2; rw [← h2]; assumption)

theorem batchAttempt_ok_length (po pa : String → Option (List String))
    (n : Nat) (r : CallResult) (ts : List String)
    (h : batchAttempt po pa n r = .ok ts) : ts.length = n := by
  rcases r with _ | _ | _ | _ | _ | c
  · exact Except.noConfusion h
  · exact Except.noConfusion h
  · exact Except.noConfusion h
  · exact Except.noConfusion h
  · exact Except.noConfusion h
  · exact batchParseContent_ok_length po pa n c ts h

/-- C7 (confirmed).  On success `BatchTranslate` returns a list whose
length equals the input length; every accepted parsing attempt carries
that length check; and an attempt that parses successfully returns its
parsed list as is after that one call, so per-element empty entries
neither trigger a retry nor are removed. -/
theorem C7_batch_shape (po pa : String → Option (List String))
    (oracle : Nat → CallResult) (texts : List String) :
    (∀ res, (gptBatchTranslate po pa oracle texts).1 = .ok res →
      res.length = texts.length)
  ∧ (∀ r ts, batchAttempt po pa texts.length r = .ok ts → ts.length = texts.length)
  ∧ (∀ ts, batchAttempt po pa texts.length (oracle 0) = .ok ts →
      (gptBatchTranslate po pa oracle texts).1 = .ok ts
      ∧ (gptBatchTranslate po pa oracle texts).2 = 1) := by
  refine ⟨?_, ?_, ?_⟩
  · intro res hres
    rcases h0 : batchAttempt po pa texts.length (oracle 0) with e0 | ts0
    · rcases h1 : batchAttempt po pa texts.length (oracle 1) with e1 | ts1
      · rcases h2 : batchAttempt po pa texts.length (oracle 2) with e2 | ts2
        · simp [gptBatchTranslate, retryFrom, h0, h1, h2] at hres
        · simp [gptBatchTranslate, retryFrom, h0, h1, h2] at hres
          rw [← hres]
          exact batchAttempt_ok_length po pa texts.length (oracle 2) ts2 h2
      · simp [gptBatchTranslate, retryFrom, h0, h1] at hres
        rw [← hres]
        exact batchAttempt_ok_length po pa texts.length (oracle 1) ts1 h1
    · simp [gptBatchTranslate, retryFrom, h0] at hres
      rw [← hres]
      exact batchAttempt_ok_length po pa texts.length (oracle 0) ts0 h0
  · intro r ts h
    exact batchAttempt_ok_length po pa texts.length r ts h
  · intro ts h0
    constructor
    · simp [gptBatchTranslate, retryFrom, h0]
    · simp [gptBatchTranslate, retryFrom, h0]

/-- C7 witness: a parser producing a two-element list with one empty
element for a two-element input — the call succeeds on the first
attempt, keeps the empty element, and the lengths match. -/
theorem C7_witness :
    (gptBatchTranslate poC7 paNone ocC7 ["a", "b"]).1 = .ok ["x", ""]
  ∧ (gptBatchTranslate poC7 paNone ocC7 ["a", "b"]).2 = 1
  ∧ (["x", ""] : List String).length = (["a", "b"] : List String).length := by
  have h := (C7_batch_shape poC7 paNone ocC7 ["a", "b"]).2.2 ["x", ""] (by rfl)
  exact ⟨h.1, h.2, rfl⟩

/-! ## Presence of target entries (for C8) -/

theorem singleTranslateKey_presence (codec : Codec) (tr : String → Except Unit String)
    (s : SingleState) (k v x : String) (hx : (mapLookup s.target x).isSome) :
    (mapLookup (singleTranslateKey codec tr s k v).target x).isSome := by
  simp only [singleTranslateKey]
  split
  · split
    · exact mapLookup_insert_isSome s.target x k _ hx
    · exact hx
  · split
    · exact hx
    · split
      · exact hx
      · exact mapLookup_insert_isSome s.target x k _ hx

theorem singleStep_presence (codec : Codec) (tr : String → Except Unit String)
    (indep : Option LocaleMap) (mode : String) (mk : List String)
    (s : SingleState) (kv : String × String) (x : String)
    (hx : (mapLookup s.target x).isSome) :
    (mapLookup (singleStep codec tr indep mode mk s kv).target x).isSome := by
  simp only [singleStep]
  split
  · exact hx
  · split
    · exact singleTranslateKey_presence codec tr s kv.1 kv.2 x hx
    · split
      · split
        · exact mapLookup_insert_isSome s.target x kv.1 _ hx
        · exact hx
      · split
        · split
          · exact singleTranslateKey_presence codec tr s kv.1 kv.2 x hx
          · exact hx
        · split
          · split
            · exact singleTranslateKey_presence codec tr s kv.1 kv.2 x hx
            · exact hx
          · exact hx

theorem singleFold_presence (codec : Codec) (tr : String → Except Unit String)
    (indep : Option LocaleMap) (mode : String) (mk : List String)
    (l : List (String × String)) (s : SingleState) (x : String)
    (hx : (mapLookup s.target x).isSome) :
    (mapLookup (l.foldl (singleStep codec tr indep mode mk) s).target x).isSome := by
  induction l generalizing s with
  | nil => exact hx
  | cons kv rest ih =>
    exact ih _ (singleStep_presence codec tr indep mode mk s kv x hx)

theorem sendBatch_presence (bf : List String → Except Unit (List String))
    (s : BatchState) (x : String) (hx : (mapLookup s.target x).isSome) :
    (mapLookup (sendBatch bf s).target x).isSome := by
  simp only [sendBatch]
  split
  · exact hx
  · split
    · exact hx
    · exact applyResults_presence s.target s.failedKeys _ x hx

theorem batchStep_presence (bf : List String → Except Unit (List String)) (bs : Nat)
    (indep : Option LocaleMap) (mode : String) (mk : List String)
    (s : BatchState) (kv : String × String) (x : String)
    (hx : (mapLookup s.target x).isSome) :
    (mapLookup (batchStep bf bs indep mode mk s kv).target x).isSome := by
  have hq : ∀ s' k' v', (mapLookup (BatchState.target s') x).isSome →
      (mapLookup (batchQueue bf bs s' k' v').target x).isSome := by
    intro s' k' v' hx'
    simp only [batchQueue]
    split
    · exact sendBatch_presence bf _ x hx'
    · exact hx'
  simp only [batchStep]
  split
  · exact hx
  · split
    · exact hq s kv.1 kv.2 hx
    · split
      · split
        · exact mapLookup_insert_isSome s.target x kv.1 _ hx
        · exact hx
      · split
        · split
          · exact hq s kv.1 kv.2 hx
          · exact hx
        · split
          · split
            · exact hq s kv.1 kv.2 hx
            · exact hx
          · exact hx

theorem batchFold_presence (bf : List String → Except Unit (List String)) (bs : Nat)
    (indep : Option LocaleMap) (mode : String) (mk : List String)
    (l : List (String × String)) (s : BatchState) (x : String)
    (hx : (mapLookup s.target x).isSome) :
    (mapLookup (l.foldl (batchStep bf bs indep mode mk) s).target x).isSome := by
  induction l generalizing s with
  | nil => exact hx
  | cons kv rest ih =>
    exact ih _ (batchStep_presence bf bs indep mode mk s kv x hx)

/-- After the missing-key initialization every source key has a target
entry. -/
theorem initMissing_presence (source target0 : LocaleMap) (k : String)
    (hk : k ∈ source.map Prod.fst) :
    (mapLookup (initMissingTarget source target0) k).isSome := by
  rw [initMissingTarget_lookup]
  split
  · rfl
  · rename_i hnm
    rcases ht : mapLookup target0 k with _ | tv
    · exact absurd ((mem_findMissingKeys source target0 k).mpr ⟨hk, ht⟩) hnm
    · rfl

/-- After one `single_process` run every source key has a target
entry. -/
theorem single_process_presence (codec : Codec) (tr : String → Except Unit String)
    (source target0 : LocaleMap) (indep : Option LocaleMap) (mode : String)
    (k : String) (hk : k ∈ source.map Prod.fst) :
    (mapLookup (single_process codec tr source target0 indep mode).target k).isSome := by
  simp only [single_process]
  exact singleFold_presence codec tr indep mode _ source _ k
    (initMissing_presence source target0 k hk)

/-- After one `batch_process` run every source key has a target
entry. -/
theorem batch_process_presence (bf : List String → Except Unit (List String)) (bs : Nat)
    (source target0 : LocaleMap) (indep : Option LocaleMap) (mode : String)
    (k : String) (hk : k ∈ source.map Prod.fst) :
    (mapLookup (batch_process bf bs source target0 indep mode).target k).isSome := by
  simp only [batch_process]
  have hF := batchFold_presence bf bs indep mode (findMissingKeys source target0) source
    ⟨initMissingTarget source target0, [], [], [], [], 0, []⟩ k
    (initMissing_presence source target0 k hk)
  split
  · exact hF
  · exact sendBatch_presence bf _ k hF

/-! ## A missing-mode run over an all-present target makes no calls -/

theorem findMissingKeys_eq_nil (source t1 : LocaleMap)
    (h : ∀ k ∈ source.map Prod.fst, (mapLookup t1 k).isSome) :
    findMissingKeys source t1 = [] := by
  simp only [findMissingKeys]
  rw [List.filter_eq_nil_iff]
  intro k hk
  have hs := h k hk
  rcases ht : mapLookup t1 k with _ | tv
  · rw [ht] at hs
    exact absurd hs (by simp)
  · simp [ht]

theorem initMissing_nil (source t1 : LocaleMap)
    (h : findMissingKeys source t1 = []) : initMissingTarget source t1 = t1 := by
  simp [initMissingTarget, h]

theorem singleStep_missing_trivial (codec : Codec) (tr : String → Except Unit String)
    (indep : Option LocaleMap) (s : SingleState) (kv : String × String)
    (hp : (mapLookup s.target kv.1).isSome) :
    (singleStep codec tr indep "missing" [] s kv).calls = s.calls := by
  simp only [singleStep]
  split
  · rfl
  · split
    · rename_i heq
      rw [heq] at hp
      exact absurd hp (by simp)
    · split
      · split
        · rfl
        · rfl
      · simp

theorem singleFold_missing_no_calls (codec : Codec) (tr : String → Except Unit String)
    (indep : Option LocaleMap) (l : List (String × String)) (s : SingleState)
    (hp : ∀ kv ∈ l, (mapLookup s.target kv.1).isSome) :
    (l.foldl (singleStep codec tr indep "missing" []) s).calls = s.calls := by
  induction l generalizing s with
  | nil => rfl
  | cons kv rest ih =>
    have h1 := singleStep_missing_trivial codec tr indep s kv
      (hp kv (List.mem_cons_self _ _))
    have h2 : ∀ kv' ∈ rest,
        (mapLookup (singleStep codec tr indep "missing" [] s kv).target kv'.1).isSome :=
      fun kv' hkv' => singleStep_presence codec tr indep "missing" [] s kv kv'.1
        (hp kv' (List.mem_cons_of_mem _ hkv'))
    rw [List.foldl_cons, ih _ h2, h1]

theorem batchStep_missing_trivial (bf : List String → Except Unit (List String)) (bs : Nat)
    (indep : Option LocaleMap) (s : BatchState) (kv : String × String)
    (hp : (mapLookup s.target kv.1).isSome) :
    (batchStep bf bs indep "missing" [] s kv).flushes = s.flushes
  ∧ (batchStep bf bs indep "missing" [] s kv).batch = s.batch := by
  simp only [batchStep]
  split
  · exact ⟨rfl, rfl⟩
  · split
    · rename_i heq
      rw [heq] at hp
      exact absurd hp (by simp)
    · split
      · split
        · exact ⟨rfl, rfl⟩
        · exact ⟨rfl, rfl⟩
      · simp

theorem batchFold_missing_no_flushes (bf : List String → Except Unit (List String))
    (bs : Nat) (indep : Option LocaleMap) (l : List (String × String)) (s : BatchState)
    (hp : ∀ kv ∈ l, (mapLookup s.target kv.1).isSome) :
    (l.foldl (batchStep bf bs indep "missing" []) s).flushes = s.flushes
  ∧ (l.foldl (batchStep bf bs indep "missing" []) s).batch = s.batch := by
  induction l generalizing s with
  | nil => exact ⟨rfl, rfl⟩
  | cons kv rest ih =>
    have h1 := batchStep_missing_trivial bf bs indep s kv (hp kv (List.mem_cons_self _ _))
    have h2 : ∀ kv' ∈ rest,
        (mapLookup (batchStep bf bs indep "missing" [] s kv).target kv'.1).isSome :=
      fun kv' hkv' => batchStep_presence bf bs indep "missing" [] s kv kv'.1
        (hp kv' (List.mem_cons_of_mem _ hkv'))
    have := ih _ h2
    rw [List.foldl_cons]
    exact ⟨this.1.trans h1.1, this.2.trans h1.2⟩

/-- A `single_process` run in missing mode over a target already
containing every source key issues zero translation calls. -/
theorem second_run_single_no_calls (codec : Codec) (tr : String → Except Unit String)
    (indep : Option LocaleMap) (source t1 : LocaleMap)
    (h : ∀ k ∈ source.map Prod.fst, (mapLookup t1 k).isSome) :
    (single_process codec tr source t1 indep "missing").calls = [] := by
  have hm : findMissingKeys source t1 = [] := findMissingKeys_eq_nil source t1 h
  have hi : initMissingTarget source t1 = t1 := initMissing_nil source t1 hm
  simp only [single_process, hm, hi]
  exact singleFold_missing_no_calls codec tr indep source ⟨t1, [], [], 0, []⟩
    (fun kv hkv => h kv.1 (List.mem_map_of_mem Prod.fst hkv))

/-- A `batch_process` run in missing mode over a target already
containing every source key performs zero flushes. -/
theorem second_run_batch_no_flushes (bf : List String → Except Unit (List String))
    (bs : Nat) (indep : Option LocaleMap) (source t1 : LocaleMap)
    (h : ∀ k ∈ source.map Prod.fst, (mapLookup t1 k).isSome) :
    (batch_process bf bs source t1 indep "missing").flushes = [] := by
  have hm : findMissingKeys source t1 = [] := findMissingKeys_eq_nil source t1 h
  have hi : initMissingTarget source t1 = t1 := initMissing_nil source t1 hm
  simp only [batch_process, hm, hi]
  have hF := batchFold_missing_no_flushes bf bs indep source ⟨t1, [], [], [], [], 0, []⟩
    (fun kv hkv => h kv.1 (List.mem_map_of_mem Prod.fst hkv))
  split
  · exact hF.1
  · rename_i hne
    exact absurd hF.2 hne

/-! ## Claim C8 -/

/-- C8 (confirmed, and stronger than stated).  After one engine run in
any mode, every source key is present in the target map, so a second
run in missing mode with the same source issues zero translation-client
calls — even without the claim's "no new failures" proviso, since
failed keys were still initialized into the target.  All four
strategy combinations for the two runs are covered. -/
theorem C8_missing_mode_idempotent (codec1 codec2 : Codec)
    (tr1 tr2 : String → Except Unit String)
    (bf1 bf2 : List String → Except Unit (List String)) (bs1 bs2 : Nat)
    (source target0 : LocaleMap) (indep1 indep2 : Option LocaleMap) (mode1 : String) :
      (single_process codec2 tr2 source
        (single_process codec1 tr1 source target0 indep1 mode1).target
        indep2 "missing").calls = []
    ∧ (batch_process bf2 bs2 source
        (batch_process bf1 bs1 source target0 indep1 mode1).target
        indep2 "missing").flushes = []
    ∧ (single_process codec2 tr2 source
        (batch_process bf1 bs1 source target0 indep1 mode1).target
        indep2 "missing").calls = []
    ∧ (batch_process bf2 bs2 source
        (single_process codec1 tr1 source target0 indep1 mode1).target
        indep2 "missing").flushes = [] := by
  have hs := fun k hk =>
    single_process_presence codec1 tr1 source target0 indep1 mode1 k hk
  have hb := fun k hk =>
    batch_process_presence bf1 bs1 source target0 indep1 mode1 k hk
  exact ⟨second_run_single_no_calls codec2 tr2 indep2 source _ hs,
    second_run_batch_no_flushes bf2 bs2 indep2 source _ hb,
    second_run_single_no_calls codec2 tr2 indep2 source _ hb,
    second_run_batch_no_flushes bf2 bs2 indep2 source _ hs⟩

/-! ## Support lemmas for the single-vs-batch equivalence (C4) -/

theorem sendBatch_len (bf : List String → Except Unit (List String)) (s : BatchState)
    (h : s.keys.length = s.batch.length) :
    (sendBatch bf s).keys.length = (sendBatch bf s).batch.length := by
  simp only [sendBatch]
  split
  · exact h
  · split
    · exact h
    · rfl

theorem batchStep_len (bf : List String → Except Unit (List String)) (bs : Nat)
    (indep : Option LocaleMap) (mode : String) (mk : List String)
    (s : BatchState) (kv : String × String)
    (h : s.keys.length = s.batch.length) :
    (batchStep bf bs indep mode mk s kv).keys.length
      = (batchStep bf bs indep mode mk s kv).batch.length := by
  have hq : ∀ s' k' v', (BatchState.keys s').length = (BatchState.batch s').length →
      (batchQueue bf bs s' k' v').keys.length = (batchQueue bf bs s' k' v').batch.length := by
    intro s' k' v' h'
    simp only [batchQueue]
    split
    · apply sendBatch_len
      simp [h']
    · simp [h']
  simp only [batchStep]
  split
  · exact h
  · split
    · exact hq s kv.1 kv.2 h
    · split
      · split
        · exact h
        · exact h
      · split
        · split
          · exact hq s kv.1 kv.2 h
          · exact h
        · split
          · split
            · exact hq s kv.1 kv.2 h
            · exact h
          · exact h

theorem batchFold_len (bf : List String → Except Unit (List String)) (bs : Nat)
    (indep : Option LocaleMap) (mode : String) (mk : List String)
    (l : List (String × String)) (s : BatchState)
    (h : s.keys.length = s.batch.length) :
    (l.foldl (batchStep bf bs indep mode mk) s).keys.length
      = (l.foldl (batchStep bf bs indep mode mk) s).batch.length := by
  induction l generalizing s with
  | nil => exact h
  | cons kv rest ih =>
    exact ih _ (batchStep_len bf bs indep mode mk s kv h)

theorem sendBatch_failed_mono (bf : List String → Except Unit (List String))
    (s : BatchState) (x : String) (hx : x ∈ s.failedKeys) :
    x ∈ (sendBatch bf s).failedKeys := by
  simp only [sendBatch]
  split
  · exact hx
  · split
    · simp [hx]
    · exact applyResults_failed_mono s.target s.failedKeys _ x hx

/-- A successful element-wise batch translation splits along an append
of the input: each output position carries the translation of its input
position. -/
theorem mapTr_append_ok (tr : String → Except Unit String) (b1 : List String)
    (v : String) (b2 res : List String)
    (h : mapTr tr (b1 ++ v :: b2) = .ok res) :
    ∃ r1 y r2, res = r1 ++ y :: r2 ∧ r1.length = b1.length ∧ tr v = .ok y := by
  induction b1 generalizing res with
  | nil =>
    simp only [List.nil_append, mapTr] at h
    rcases htr : tr v with e | y
    · rw [htr] at h
      exact Except.noConfusion h
    · rw [htr] at h
      rcases hrest : mapTr tr b2 with e | ys
      · rw [hrest] at h
        exact Except.noConfusion h
      · rw [hrest] at h
        injection h with h2
        exact ⟨[], y, ys, by simp [← h2], rfl, rfl⟩
  | cons x xs ih =>
    simp only [List.cons_append, mapTr, List.append_eq] at h
    rcases htr : tr x with e | y0
    · rw [htr] at h
      exact Except.noConfusion h
    · rw [htr] at h
      rcases hrest : mapTr tr (xs ++ v :: b2) with e | ys
      · rw [hrest] at h
        exact Except.noConfusion h
      · rw [hrest] at h
        injection h with h2
        obtain ⟨r1, y, r2, hys, hlen, htv⟩ := ih ys hrest
        exact ⟨y0 :: r1, y, r2, by simp [← h2, hys], by simp [hlen], htv⟩

/-- One `batch_process` iteration is a skip, an override write, or a
queue of its own key. -/
theorem batchStep_cases (bf : List String → Except Unit (List String)) (bs : Nat)
    (indep : Option LocaleMap) (mode : String) (mk : List String)
    (s : BatchState) (kv : String × String) :
    batchStep bf bs indep mode mk s kv = s
  ∨ (∃ iv, batchStep bf bs indep mode mk s kv
      = { s with target := mapInsert s.target kv.1 iv })
  ∨ batchStep bf bs indep mode mk s kv = batchQueue bf bs s kv.1 kv.2 := by
  simp only [batchStep]
  split
  · exact Or.inl rfl
  · split
    · exact Or.inr (Or.inr rfl)
    · split
      · split
        · rename_i iv _
          exact Or.inr (Or.inl ⟨iv, rfl⟩)
        · exact Or.inl rfl
      · split
        · split
          · exact Or.inr (Or.inr rfl)
          · exact Or.inl rfl
        · split
          · split
            · exact Or.inr (Or.inr rfl)
            · exact Or.inl rfl
          · exact Or.inl rfl

/-- One `single_process` iteration is a skip, an override write, or a
translation of its own key. -/
theorem singleStep_cases (codec : Codec) (tr : String → Except Unit String)
    (indep : Option LocaleMap) (mode : String) (mk : List String)
    (s : SingleState) (kv : String × String) :
    singleStep codec tr indep mode mk s kv = s
  ∨ (∃ iv, singleStep codec tr indep mode mk s kv
      = { s with target := mapInsert s.target kv.1 iv })
  ∨ singleStep codec tr indep mode mk s kv = singleTranslateKey codec tr s kv.1 kv.2 := by
  simp only [singleStep]
  split
  · exact Or.inl rfl
  · split
    · exact Or.inr (Or.inr rfl)
    · split
      · split
        · rename_i iv _
          exact Or.inr (Or.inl ⟨iv, rfl⟩)
        · exact Or.inl rfl
      · split
        · split
          · exact Or.inr (Or.inr rfl)
          · exact Or.inl rfl
        · split
          · split
            · exact Or.inr (Or.inr rfl)
            · exact Or.inl rfl
          · exact Or.inl rfl

/-- Flushing preserves the per-key batch invariant: a pending key is
either written with its translation (the whole flush succeeded) or
recorded as failed (the whole flush failed); a resolved key is
untouched; a failed key stays failed. -/
theorem sendBatch_C4Inv (tr : String → Except Unit String) (s : BatchState)
    (k v r : String) (hlen : s.keys.length = s.batch.length)
    (htr : tr v = .ok r) (hr : ¬(r = " " ∨ r = ""))
    (hInv : C4Inv s k v r) : C4Inv (sendBatch (mapTr tr) s) k v r := by
  rcases hInv with ⟨hp, hnf⟩ | ⟨hres, hnf⟩ | hf
  · obtain ⟨p1, p2, hzip, h1, h2⟩ := hp
    have hkeys : s.keys = p1.map Prod.fst ++ k :: p2.map Prod.fst := by
      have hmf := (List.map_fst_zip s.keys s.batch hlen.le).symm
      rw [hmf, hzip]
      simp
    have hbatch : s.batch = p1.map Prod.snd ++ v :: p2.map Prod.snd := by
      have hms := (List.map_snd_zip s.keys s.batch hlen.ge).symm
      rw [hms, hzip]
      simp
    have hbne : ¬s.batch = [] := by
      rw [hbatch]
      simp
    simp only [sendBatch, if_neg hbne]
    rcases hbf : mapTr tr s.batch with e | results
    · right
      right
      simp only [List.mem_append]
      right
      rw [hkeys]
      simp
    · rw [hbatch] at hbf
      obtain ⟨r1, y, r2, hresEq, hlen1, hy⟩ :=
        mapTr_append_ok tr (p1.map Prod.snd) v (p2.map Prod.snd) results hbf
      have hyr : y = r := by
        rw [htr] at hy
        injection hy with h3
        exact h3.symm
      subst hyr
      have hlen1' : p1.length = r1.length := by
        simpa using hlen1.symm
      have htrip : (s.keys.zip s.batch).zip results
          = p1.zip r1 ++ ((k, v), y) :: p2.zip r2 := by
        rw [hzip, hresEq, List.zip_append hlen1']
        simp
      have ha : ∀ p ∈ p1.zip r1, p.1.1 ≠ k := by
        intro p hp' heq
        rcases p with ⟨q, y'⟩
        have hq := (List.of_mem_zip hp').1
        exact h1 (heq ▸ List.mem_map_of_mem Prod.fst hq)
      have hb : ∀ p ∈ p2.zip r2, p.1.1 ≠ k := by
        intro p hp' heq
        rcases p with ⟨q, y'⟩
        have hq := (List.of_mem_zip hp').1
        exact h2 (heq ▸ List.mem_map_of_mem Prod.fst hq)
      have happly := applyResults_hit s.target s.failedKeys (p1.zip r1) (p2.zip r2)
        k v y ha hb hr
      rw [← htrip] at happly
      right
      left
      exact ⟨⟨happly.1, by simp⟩, fun hfk => hnf (happly.2.mp hfk)⟩
  · have hfr := sendBatch_frame (mapTr tr) s k hres.2
    right
    left
    exact ⟨⟨hfr.1.trans hres.1, hfr.2.1⟩, fun hfk => hnf (hfr.2.2.1.mp hfk)⟩
  · right
    right
    exact sendBatch_failed_mono (mapTr tr) s k hf

/-- Queueing a different key preserves the per-key batch invariant. -/
theorem batchQueue_C4Inv_other (tr : String → Except Unit String) (bs : Nat)
    (s : BatchState) (k v r k2 v2 : String) (hne : k2 ≠ k)
    (hlen : s.keys.length = s.batch.length)
    (htr : tr v = .ok r) (hr : ¬(r = " " ∨ r = ""))
    (hInv : C4Inv s k v r) : C4Inv (batchQueue (mapTr tr) bs s k2 v2) k v r := by
  have hzq : (s.keys ++ [k2]).zip (s.batch ++ [v2]) = s.keys.zip s.batch ++ [(k2, v2)] := by
    rw [List.zip_append hlen]
    rfl
  have hInv' : C4Inv { s with batch := s.batch ++ [v2], keys := s.keys ++ [k2],
                               translatedCount := s.translatedCount + 1,
                               selected := s.selected ++ [k2] } k v r := by
    rcases hInv with ⟨⟨p1, p2, hzip, h1, h2⟩, hnf⟩ | ⟨hres, hnf⟩ | hf
    · left
      refine ⟨⟨p1, p2 ++ [(k2, v2)], ?_, h1, ?_⟩, hnf⟩
      · show (s.keys ++ [k2]).zip (s.batch ++ [v2]) = p1 ++ (k, v) :: (p2 ++ [(k2, v2)])
        rw [hzq, hzip]
        simp
      · simp only [List.map_append, List.mem_append]
        intro hmem
        rcases hmem with hm | hm
        · exact h2 hm
        · simp at hm
          exact hne hm.symm
    · right
      left
      refine ⟨⟨hres.1, ?_⟩, hnf⟩
      simp only [List.mem_append]
      intro hmem
      rcases hmem with hm | hm
      · exact hres.2 hm
      · simp at hm
        exact hne hm.symm
    · right
      right
      exact hf
  simp only [batchQueue]
  split
  · exact sendBatch_C4Inv tr _ k v r (by simp [hlen]) htr hr hInv'
  · exact hInv'

/-- Queueing key `k` itself, from a state where `k` is neither pending
nor failed, establishes the per-key batch invariant. -/
theorem batchQueue_C4Inv_start (tr : String → Except Unit String) (bs : Nat)
    (s : BatchState) (k v r : String) (hk : k ∉ s.keys) (hnf : k ∉ s.failedKeys)
    (hlen : s.keys.length = s.batch.length)
    (htr : tr v = .ok r) (hr : ¬(r = " " ∨ r = "")) :
    C4Inv (batchQueue (mapTr tr) bs s k v) k v r := by
  have hzq : (s.keys ++ [k]).zip (s.batch ++ [v]) = s.keys.zip s.batch ++ [(k, v)] := by
    rw [List.zip_append hlen]
    rfl
  have hInv' : C4Inv { s with batch := s.batch ++ [v], keys := s.keys ++ [k],
                               translatedCount := s.translatedCount + 1,
                               selected := s.selected ++ [k] } k v r := by
    left
    refine ⟨⟨s.keys.zip s.batch, [], ?_, ?_, by simp⟩, hnf⟩
    · show (s.keys ++ [k]).zip (s.batch ++ [v]) = s.keys.zip s.batch ++ (k, v) :: []
      rw [hzq]
    · rw [List.map_fst_zip s.keys s.batch hlen.le]
      exact hk
  simp only [batchQueue]
  split
  · exact sendBatch_C4Inv tr _ k v r (by simp [hlen]) htr hr hInv'
  · exact hInv'

/-- A loop iteration at another key preserves the per-key batch
invariant. -/
theorem batchStep_C4Inv (tr : String → Except Unit String) (bs : Nat)
    (indep : Option LocaleMap) (mode : String) (mk : List String)
    (s : BatchState) (kv : String × String) (k v r : String) (hne : k ≠ kv.1)
    (hlen : s.keys.length = s.batch.length)
    (htr : tr v = .ok r) (hr : ¬(r = " " ∨ r = ""))
    (hInv : C4Inv s k v r) :
    C4Inv (batchStep (mapTr tr) bs indep mode mk s kv) k v r := by
  rcases batchStep_cases (mapTr tr) bs indep mode mk s kv with hc | ⟨iv, hc⟩ | hc <;> rw [hc]
  · exact hInv
  · rcases hInv with ⟨hp, hnf⟩ | ⟨hres, hnf⟩ | hf
    · exact Or.inl ⟨hp, hnf⟩
    · exact Or.inr (Or.inl ⟨⟨(mapLookup_insert_ne s.target k kv.1 iv (Ne.symm hne)).trans
        hres.1, hres.2⟩, hnf⟩)
    · exact Or.inr (Or.inr hf)
  · exact batchQueue_C4Inv_other tr bs s k v r kv.1 kv.2 (Ne.symm hne) hlen htr hr hInv

/-- Folding the loop over pairs with other keys preserves the per-key
batch invariant. -/
theorem batchFold_C4Inv (tr : String → Except Unit String) (bs : Nat)
    (indep : Option LocaleMap) (mode : String) (mk : List String)
    (l : List (String × String)) (s : BatchState) (k v r : String)
    (hkl : k ∉ l.map Prod.fst)
    (hlen : s.keys.length = s.batch.length)
    (htr : tr v = .ok r) (hr : ¬(r = " " ∨ r = ""))
    (hInv : C4Inv s k v r) :
    C4Inv (l.foldl (batchStep (mapTr tr) bs indep mode mk) s) k v r := by
  induction l generalizing s with
  | nil => exact hInv
  | cons kv rest ih =>
    simp only [List.map_cons, List.mem_cons, not_or] at hkl
    exact ih _ hkl.2 (batchStep_len (mapTr tr) bs indep mode mk s kv hlen)
      (batchStep_C4Inv tr bs indep mode mk s kv k v r hkl.1 hlen htr hr hInv)

/-- A key that the single strategy selects and does not fail, with a
non-array source value, ends bound to its (non-empty) translation. -/
theorem single_value_of_success (codec : Codec) (tr : String → Except Unit String)
    (indep : Option LocaleMap) (mode : String) (source target0 : LocaleMap)
    (k v : String) (hnd : (source.map Prod.fst).Nodup)
    (hsv : mapLookup source k = some v)
    (hna : ¬(strStartsWith v "[" = true ∧ strEndsWith v "]" = true
              ∧ (codec.parseStringArray v).isSome))
    (hsel : k ∈ (single_process codec tr source target0 indep mode).selected)
    (hfail : k ∉ (single_process codec tr source target0 indep mode).failedKeys) :
    ∃ r, tr v = .ok r ∧ ¬(r = "" ∨ r = " ")
      ∧ mapLookup (single_process codec tr source target0 indep mode).target k = some r := by
  obtain ⟨s1, ht1, hcalls, hsel1, hfail1, hRt, hRc, hRsel, hRf⟩ :=
    single_process_decompose codec tr indep mode source target0 k v hnd hsv
  rcases singleStep_cases codec tr indep mode (findMissingKeys source target0) s1 (k, v)
    with hc | ⟨iv, hc⟩ | hc
  · rw [hc] at hRsel
    exact absurd (hRsel.mp hsel) hsel1
  · rw [hc] at hRsel
    exact absurd (hRsel.mp hsel) hsel1
  · rcases htr : tr v with e | r
    · have hbad := singleTranslateKey_plain_bad codec tr s1 k v hna (Or.inl ⟨e, htr⟩)
      rw [hc, hbad] at hRf
      exact absurd (hRf.mpr (by simp)) hfail
    · by_cases hre : r = "" ∨ r = " "
      · have hbad := singleTranslateKey_plain_bad codec tr s1 k v hna (Or.inr ⟨r, htr, hre⟩)
        rw [hc, hbad] at hRf
        exact absurd (hRf.mpr (by simp)) hfail
      · have hok := singleTranslateKey_plain_ok codec tr s1 k v r hna htr hre
        rw [hc, hok] at hRt
        refine ⟨r, rfl, hre, ?_⟩
        rw [hRt]
        simp [mapLookup_insert_self]

/-- A key that the batch strategy selects and does not fail, under the
element-wise batch translator, ends bound to its translation. -/
theorem batch_value_of_success (tr : String → Except Unit String) (bs : Nat)
    (indep : Option LocaleMap) (mode : String) (source target0 : LocaleMap)
    (k v r : String) (hnd : (source.map Prod.fst).Nodup)
    (hsv : mapLookup source k = some v)
    (htr : tr v = .ok r) (hrg : ¬(r = " " ∨ r = ""))
    (hsel : k ∈ (batch_process (mapTr tr) bs source target0 indep mode).selected)
    (hfail : k ∉ (batch_process (mapTr tr) bs source target0 indep mode).failedKeys) :
    mapLookup (batch_process (mapTr tr) bs source target0 indep mode).target k = some r := by
  obtain ⟨l1, l2, hsplit, h1, h2⟩ := mapLookup_split source k v hnd hsv
  set mk := findMissingKeys source target0 with hmk
  set t1 := initMissingTarget source target0 with ht1
  set s0 : BatchState := ⟨t1, [], [], [], [], 0, []⟩ with hs0
  set s1 := l1.foldl (batchStep (mapTr tr) bs indep mode mk) s0 with hs1
  have hk0 : k ∉ s0.keys := by simp [hs0]
  have frame1 := batchFold_frame (mapTr tr) bs indep mode mk l1 s0 k h1 hk0
  have hk1 : k ∉ s1.keys := frame1.2.1
  have hnf1 : k ∉ s1.failedKeys := fun h => absurd (frame1.2.2.1.mp h) (by simp [hs0])
  have hnsel1 : k ∉ s1.selected := fun h => absurd (frame1.2.2.2.1.mp h) (by simp [hs0])
  have hlen1 : s1.keys.length = s1.batch.length :=
    batchFold_len (mapTr tr) bs indep mode mk l1 s0 (by simp [hs0])
  set s2 := batchStep (mapTr tr) bs indep mode mk s1 (k, v) with hs2
  set sF := l2.foldl (batchStep (mapTr tr) bs indep mode mk) s2 with hsF
  have hfold : source.foldl (batchStep (mapTr tr) bs indep mode mk) s0 = sF := by
    rw [hsplit]
    rw [List.foldl_append, List.foldl_cons]
  set sL := if sF.batch = [] then sF else sendBatch (mapTr tr) sF with hsL
  have hR : batch_process (mapTr tr) bs source target0 indep mode
      = ⟨sL.target, sL.batch, sL.keys, sL.failedKeys, sL.flushes, sL.translatedCount,
         sL.selected, source.length, .ok ()⟩ := by
    simp only [batch_process, ← hmk, ← ht1, ← hs0, hfold, ← hsL]
  rw [hR] at hsel hfail ⊢
  simp only at hsel hfail ⊢
  have hlen2 : s2.keys.length = s2.batch.length :=
    batchStep_len (mapTr tr) bs indep mode mk s1 (k, v) hlen1
  have hlenF : sF.keys.length = sF.batch.length :=
    batchFold_len (mapTr tr) bs indep mode mk l2 s2 hlen2
  rcases batchStep_cases (mapTr tr) bs indep mode mk s1 (k, v) with hc | ⟨iv, hc⟩ | hc
  · -- not selected: contradiction with hsel
    have hk2 : k ∉ s2.keys := by rw [hs2, hc]; exact hk1
    have frame2 := batchFold_frame (mapTr tr) bs indep mode mk l2 s2 k h2 hk2
    have hselF : k ∈ sF.selected := by
      by_cases hb : sF.batch = []
      · rw [hsL, if_pos hb] at hsel
        exact hsel
      · rw [hsL, if_neg hb, sendBatch_selected_eq] at hsel
        exact hsel
    have : k ∈ s2.selected := frame2.2.2.2.1.mp hselF
    rw [hs2, hc] at this
    exact absurd this hnsel1
  · have hk2 : k ∉ s2.keys := by rw [hs2, hc]; exact hk1
    have frame2 := batchFold_frame (mapTr tr) bs indep mode mk l2 s2 k h2 hk2
    have hselF : k ∈ sF.selected := by
      by_cases hb : sF.batch = []
      · rw [hsL, if_pos hb] at hsel
        exact hsel
      · rw [hsL, if_neg hb, sendBatch_selected_eq] at hsel
        exact hsel
    have : k ∈ s2.selected := frame2.2.2.2.1.mp hselF
    rw [hs2, hc] at this
    exact absurd this hnsel1
  · -- queued: run the invariant
    have hInv2 : C4Inv s2 k v r := by
      rw [hs2, hc]
      exact batchQueue_C4Inv_start tr bs s1 k v r hk1 hnf1 hlen1 htr hrg
    have hInvF : C4Inv sF k v r :=
      batchFold_C4Inv tr bs indep mode mk l2 s2 k v r h2 hlen2 htr hrg hInv2
    have hInvL : C4Inv sL k v r := by
      by_cases hb : sF.batch = []
      · rw [hsL, if_pos hb]
        exact hInvF
      · rw [hsL, if_neg hb]
        exact sendBatch_C4Inv tr sF k v r hlenF htr hrg hInvF
    have hkeysL : k ∉ sL.keys := by
      intro hkk
      by_cases hb : sF.batch = []
      · rw [hsL, if_pos hb] at hkk
        have : sF.keys = [] := List.eq_nil_of_length_eq_zero (by rw [hlenF, hb]; rfl)
        rw [this] at hkk
        simp at hkk
      · rw [hsL, if_neg hb] at hkk hfail
        simp only [sendBatch, if_neg hb] at hkk hfail
        rcases hbf2 : mapTr tr sF.batch with e | res
        · rw [hbf2] at hkk hfail
          simp only [List.mem_append] at hfail
          exact hfail (Or.inr hkk)
        · rw [hbf2] at hkk
          simp at hkk
    rcases hInvL with ⟨⟨p1, p2, hzip, _, _⟩, _⟩ | ⟨hresv, _⟩ | hfk
    · have : (k, v) ∈ sL.keys.zip sL.batch := by
        rw [hzip]
        simp
      exact absurd (List.of_mem_zip this).1 hkeysL
    · exact hresv.1
    · exact absurd hfk hfail

/-! ## Claim C4 -/

/-- C4 (corrected).  With the same deterministic translator (the batch
call translating element-wise), identical source, target, override map
and mode, and any batch size, the two strategies produce the same final
target value for every key that succeeds under both — PROVIDED the
key's source value is not accepted as a JSON string array by the single
strategy: the single strategy translates such values element-by-element
and re-marshals them, while the batch strategy sends the raw
array-encoded string, so array-valued keys can succeed under both with
different results. -/
theorem C4_single_batch_agreement (codec : Codec) (tr : String → Except Unit String)
    (bs : Nat) (source target0 : LocaleMap) (indep : Option LocaleMap) (mode : String)
    (k v : String) (hnd : (source.map Prod.fst).Nodup)
    (hsv : mapLookup source k = some v)
    (hna : ¬(strStartsWith v "[" = true ∧ strEndsWith v "]" = true
              ∧ (codec.parseStringArray v).isSome))
    (hselS : k ∈ (single_process codec tr source target0 indep mode).selected)
    (hfailS : k ∉ (single_process codec tr source target0 indep mode).failedKeys)
    (hselB : k ∈ (batch_process (mapTr tr) bs source target0 indep mode).selected)
    (hfailB : k ∉ (batch_process (mapTr tr) bs source target0 indep mode).failedKeys) :
    mapLookup (single_process codec tr source target0 indep mode).target k
      = mapLookup (batch_process (mapTr tr) bs source target0 indep mode).target k := by
  obtain ⟨r, htr, hre, hS⟩ := single_value_of_success codec tr indep mode source target0
    k v hnd hsv hna hselS hfailS
  have hrg : ¬(r = " " ∨ r = "") := fun h => hre h.symm
  have hB := batch_value_of_success tr bs indep mode source target0 k v r hnd hsv
    htr hrg hselB hfailB
  rw [hS, hB]

/-- C4 counterexample: the source value is the JSON array string
`["a"]`.  Both strategies select the key and succeed (no failed keys),
yet the single strategy produces the element-wise translation
re-marshalled, while the batch strategy produces the translation of the
raw string — different final target values for a key succeeding under
both. -/
theorem C4_counterexample :
    "k" ∈ (single_process simpleCodec trPrefix [("k", "[\"a\"]")] [] none "missing").selected
  ∧ (single_process simpleCodec trPrefix [("k", "[\"a\"]")] [] none "missing").failedKeys = []
  ∧ "k" ∈ (batch_process (mapTr trPrefix) 1 [("k", "[\"a\"]")] [] none "missing").selected
  ∧ (batch_process (mapTr trPrefix) 1 [("k", "[\"a\"]")] [] none "missing").failedKeys = []
  ∧ mapLookup (single_process simpleCodec trPrefix [("k", "[\"a\"]")] []
      none "missing").target "k" = some "[\"T:a\"]"
  ∧ mapLookup (batch_process (mapTr trPrefix) 1 [("k", "[\"a\"]")] []
      none "missing").target "k" = some "T:[\"a\"]"
  ∧ mapLookup (single_process simpleCodec trPrefix [("k", "[\"a\"]")] []
        none "missing").target "k"
      ≠ mapLookup (batch_process (mapTr trPrefix) 1 [("k", "[\"a\"]")] []
        none "missing").target "k" := by
  refine ⟨?_, ?_, ?_, ?_, ?_, ?_, ?_⟩ <;> decide

/-- C4 witness: the amended equivalence evaluated at a concrete
non-array key succeeding under both strategies. -/
theorem C4_witness :
    mapLookup (single_process simpleCodec trPrefix [("a", "x")] [] none "missing").target "a"
      = mapLookup (batch_process (mapTr trPrefix) 1 [("a", "x")] [] none "missing").target "a" :=
  C4_single_batch_agreement simpleCodec trPrefix 1 [("a", "x")] [] none "missing" "a" "x"
    (by decide) (by decide) (by decide) (by decide) (by decide) (by decide) (by decide)

end I18n
